import Mathlib

/-!
Verification of the curve25519-dalek multi-scalar-multiplication engine
specification against the repository sources.

The repository ships the byte-conversion module (`byte_conversions.rs`) in
full, together with its Verus/Kani proof corpus (spec functions and lemma
statements for `sqrt_ratio_i`, decompression, number theory of
p = 2^255 - 19, and the Straus/Pippenger refactoring harnesses).  The
implementation files for field, scalar, point and multi-scalar arithmetic
are not part of the source tree; where a claim depends on them, the
corresponding definitions below are modelled from the specification
document and are marked `Modelled from the spec:` in their doc comments.
Field elements are represented as natural numbers with arithmetic mod p,
exactly as the repository's Verus spec corpus does (`math_field_mul` is
`(a * b) % p`, and so on).
-/

set_option maxRecDepth 8000

/-- The field prime p = 2^255 - 19 of GF(2^255 - 19), as fixed by the
specification (section 1) and by the repository's number-theory lemma
corpus (`lemma_p_mod_8_eq_5`, `lemma_p_is_odd`). -/
def p : ℕ := 2 ^ 255 - 19

/-- Modelled from the spec: the fixed curve constant d of the Edwards curve
equation -x^2 + y^2 = 1 + d x^2 y^2 (spec section 3); the constants file
itself is not in the source tree.  This is -121665/121666 mod p. -/
def EDWARDS_D : ℕ := 37095705934669439343138083508754565189542113879843219016388785533085940283555

/-- Modelled from the spec: the process-wide constant SQRT_M1, a fixed
square root of -1 mod p (spec sections 3 and 4.1); the constants file
itself is not in the source tree. -/
def SQRT_M1 : ℕ := 19681161376707505956807079304988542015446066515923890162744021073123829784752

/-- Modelled from the spec: the x-coordinate of the fixed basepoint
(spec section 3); the constants file itself is not in the source tree. -/
def BASE_X : ℕ := 15112221349535400772501151409588531511454012693041857206046113283949847762202

/-- Modelled from the spec: the y-coordinate of the fixed basepoint,
4/5 mod p; the constants file itself is not in the source tree. -/
def BASE_Y : ℕ := 46316835694926478169428394003475163141307993866256225615783033603165251855960

/-- The exponent (p - 5) / 8 used by `sqrt_ratio_i`, translated from
`sqrt_ratio_exponent` in `specs/unused_sqrt_ratio_i_specs.rs`. -/
def sqrt_ratio_exponent : ℕ := (p - 5) / 8

/-- Field addition mod p, following the repository's Verus spec corpus
(`math_field_add`). -/
def fadd (a b : ℕ) : ℕ := (a + b) % p

/-- Field multiplication mod p, following the repository's Verus spec
corpus (`math_field_mul`). -/
def fmul (a b : ℕ) : ℕ := a * b % p

/-- Field subtraction mod p, following the repository's Verus spec corpus
(`math_field_sub` appears in `unused_decompress_lemmas.rs` as
`((a % p) + p - (b % p)) % p`). -/
def fsub (a b : ℕ) : ℕ := (a % p + p - b % p) % p

/-- Field negation mod p, following the repository's Verus spec corpus
(`math_field_neg`, `(p - a % p) % p`). -/
def fneg (a : ℕ) : ℕ := (p - a % p) % p

/-
Byte conversions: translated from the repository file
`src/byte_conversions.rs`, which is present in full.  A machine integer of
width N is embedded as a natural number below 2^N; the bit-masking
operations `x & 0xff` and `x >> k` of the source are the Lean operations
`x &&& 0xff` and `x >>> k` on ℕ.
-/

/-- Little-endian value of the first n entries of a byte list.  This embeds
the spec function `bytes_to_nat_prefix` of `specs/core_specs.rs` (only its
unfolding is visible in the sources, in the comments of
`byte_conversions.rs` and `unused_to_nat_lemmas.rs`:
the value at n+1 adds `seq[n] * pow2(n*8)` to the value at n).  The name
is adjusted for this development. -/
def bytesToNatFirst (s : List ℕ) : ℕ → ℕ
  | 0 => 0
  | n + 1 => bytesToNatFirst s n + s.getD n 0 * 2 ^ (8 * n)

/-- Translated from `u16_to_le_bytes` in `src/byte_conversions.rs`. -/
def u16_to_le_bytes (x : ℕ) : List ℕ :=
  [x &&& 0xff, (x >>> 8) &&& 0xff]

/-- Translated from `u32_to_le_bytes` in `src/byte_conversions.rs`. -/
def u32_to_le_bytes (x : ℕ) : List ℕ :=
  [x &&& 0xff, (x >>> 8) &&& 0xff, (x >>> 16) &&& 0xff, (x >>> 24) &&& 0xff]

/-- Translated from `u64_to_le_bytes` in `src/byte_conversions.rs`. -/
def u64_to_le_bytes (x : ℕ) : List ℕ :=
  [x &&& 0xff, (x >>> 8) &&& 0xff, (x >>> 16) &&& 0xff, (x >>> 24) &&& 0xff,
   (x >>> 32) &&& 0xff, (x >>> 40) &&& 0xff, (x >>> 48) &&& 0xff, (x >>> 56) &&& 0xff]

/-- Translated from `u128_to_le_bytes` in `src/byte_conversions.rs`. -/
def u128_to_le_bytes (x : ℕ) : List ℕ :=
  [x &&& 0xff, (x >>> 8) &&& 0xff, (x >>> 16) &&& 0xff, (x >>> 24) &&& 0xff,
   (x >>> 32) &&& 0xff, (x >>> 40) &&& 0xff, (x >>> 48) &&& 0xff, (x >>> 56) &&& 0xff,
   (x >>> 64) &&& 0xff, (x >>> 72) &&& 0xff, (x >>> 80) &&& 0xff, (x >>> 88) &&& 0xff,
   (x >>> 96) &&& 0xff, (x >>> 104) &&& 0xff, (x >>> 112) &&& 0xff, (x >>> 120) &&& 0xff]

lemma and_255_eq (x : ℕ) : x &&& 255 = x % 256 :=
  Nat.and_pow_two_sub_one_eq_mod x 8

lemma shift_and_255 (x k : ℕ) : (x >>> k) &&& 255 = x / 2 ^ k % 256 := by
  rw [and_255_eq, Nat.shiftRight_eq_div_pow]

/-- C9: the prime p = 2^255 - 19 satisfies p mod 8 = 5 and p mod 2 = 1, and
the sqrt_ratio exponent (p - 5)/8 is exact: 8 * ((p - 5)/8) + 5 = p.  This
settles the statements of `lemma_p_mod_8_eq_5` and `lemma_p_is_odd` in
`lemmas/common_lemmas/unused_number_theory_lemmas.rs`. -/
theorem p_mod_8_eq_5_and_odd :
    p % 8 = 5 ∧ p % 2 = 1 ∧ 8 * sqrt_ratio_exponent + 5 = p := by
  refine ⟨by decide, by decide, by decide⟩

/-- C10: any i with i < p and i * i ≡ -1 (mod p) — in particular the
constant SQRT_M1, see the witness — differs from 1 and from p - 1, and the
four correction factors 1, p - 1, i, (p - i) % p used by `sqrt_ratio_i`
are pairwise distinct residues.  This settles the statements of
`lemma_sqrt_m1_neq_one` and `lemma_sqrt_m1_neq_neg_one` in
`lemmas/common_lemmas/unused_sqrt_ratio_lemmas.rs`. -/
theorem sqrt_m1_fourth_roots_distinct (i : ℕ) (hlt : i < p)
    (hsq : i * i % p = p - 1) :
    i ≠ 1 ∧ i ≠ p - 1 ∧
    (1 : ℕ) ≠ p - 1 ∧ (1 : ℕ) ≠ i ∧ (1 : ℕ) ≠ (p - i) % p ∧
    p - 1 ≠ i ∧ p - 1 ≠ (p - i) % p ∧ i ≠ (p - i) % p := by
  have hp3 : 3 < p := by decide
  have hp2 : p % 2 = 1 := by decide
  have hi0 : i ≠ 0 := by
    intro h
    rw [h] at hsq
    simp only [Nat.zero_mul, Nat.zero_mod] at hsq
    omega
  have hine1 : i ≠ 1 := by
    intro h
    rw [h, Nat.one_mul] at hsq
    have : 1 % p = 1 := Nat.mod_eq_of_lt (by omega)
    omega
  have hinepm1 : i ≠ p - 1 := by
    intro h
    rw [h] at hsq
    have : (p - 1) * (p - 1) % p = 1 := by decide
    omega
  have hmod : (p - i) % p = p - i := Nat.mod_eq_of_lt (by omega)
  refine ⟨hine1, hinepm1, by omega, fun h => hine1 h.symm, ?_, fun h => hinepm1 h.symm, ?_, ?_⟩
  · rw [hmod]; intro h; exact hinepm1 (by omega)
  · rw [hmod]; intro h; exact hine1 (by omega)
  · rw [hmod]; intro h; omega

/-- Witness for C10: the concrete SQRT_M1 satisfies the two hypotheses, so
the distinctness facts hold for it. -/
theorem sqrt_m1_fourth_roots_distinct_witness :
    SQRT_M1 ≠ 1 ∧ SQRT_M1 ≠ p - 1 ∧
    (1 : ℕ) ≠ p - 1 ∧ (1 : ℕ) ≠ SQRT_M1 ∧ (1 : ℕ) ≠ (p - SQRT_M1) % p ∧
    p - 1 ≠ SQRT_M1 ∧ p - 1 ≠ (p - SQRT_M1) % p ∧ SQRT_M1 ≠ (p - SQRT_M1) % p :=
  sqrt_m1_fourth_roots_distinct SQRT_M1 (by decide) (by decide)

/-- C7: each fixed-width little-endian encoder of `byte_conversions.rs` is
total (a Lean function), returns exactly N/8 byte values below 256, and
the little-endian interpretation of the result over its full length
recovers the input, for inputs of width N ∈ {16, 32, 64, 128}.  This is
the `ensures` clause `bytes_to_nat_prefix(bytes@, N) == x as nat` of the
four source functions. -/
theorem le_bytes_roundtrip (x : ℕ) :
    (x < 2 ^ 16 →
      (u16_to_le_bytes x).length = 2 ∧ (∀ b ∈ u16_to_le_bytes x, b < 256) ∧
      bytesToNatFirst (u16_to_le_bytes x) 2 = x) ∧
    (x < 2 ^ 32 →
      (u32_to_le_bytes x).length = 4 ∧ (∀ b ∈ u32_to_le_bytes x, b < 256) ∧
      bytesToNatFirst (u32_to_le_bytes x) 4 = x) ∧
    (x < 2 ^ 64 →
      (u64_to_le_bytes x).length = 8 ∧ (∀ b ∈ u64_to_le_bytes x, b < 256) ∧
      bytesToNatFirst (u64_to_le_bytes x) 8 = x) ∧
    (x < 2 ^ 128 →
      (u128_to_le_bytes x).length = 16 ∧ (∀ b ∈ u128_to_le_bytes x, b < 256) ∧
      bytesToNatFirst (u128_to_le_bytes x) 16 = x) := by
  refine ⟨fun h => ⟨rfl, ?_, ?_⟩, fun h => ⟨rfl, ?_, ?_⟩,
          fun h => ⟨rfl, ?_, ?_⟩, fun h => ⟨rfl, ?_, ?_⟩⟩ <;>
    simp only [u16_to_le_bytes, u32_to_le_bytes, u64_to_le_bytes, u128_to_le_bytes,
      bytesToNatFirst, shift_and_255, and_255_eq, List.mem_cons, List.not_mem_nil,
      List.getD_cons_zero, List.getD_cons_succ, List.getD_nil] <;>
    first
      | (intro b hb
         rcases hb with h1 | hb <;> try omega
         repeat (rcases hb with h1 | hb <;> try omega))
      | omega

/-- Witness for C7: the encoders evaluated at 777 recover 777. -/
theorem le_bytes_roundtrip_witness :
    (777 : ℕ) < 2 ^ 16 ∧ bytesToNatFirst (u16_to_le_bytes 777) 2 = 777 :=
  ⟨by decide, ((le_bytes_roundtrip 777).1 (by decide)).2.2⟩

/-
The square-root-ratio computation.  The implementation file (`field.rs`,
`sqrt_ratio_i`) is not in the source tree; the definitions below are
modelled from spec section 4.1 and from the Verus spec corpus that is in
the tree (`specs/unused_sqrt_ratio_i_specs.rs`,
`lemmas/common_lemmas/unused_sqrt_ratio_lemmas.rs`).
-/

/-- Fuel-driven modular exponentiation by squaring; the fuel of 256 covers
every exponent below 2^256, in particular `sqrt_ratio_exponent`.  This
embeds the fixed-length exponentiation used by `sqrt_ratio_i`. -/
def powModAux : ℕ → ℕ → ℕ → ℕ → ℕ
  | 0, _, _, m => 1 % m
  | fuel + 1, b, e, m =>
    if e = 0 then 1 % m
    else
      let r := powModAux fuel (b * b % m) (e / 2) m
      if e % 2 = 1 then b * r % m else r

/-- Modular exponentiation with fuel 256. -/
def powMod (b e m : ℕ) : ℕ := powModAux 256 b e m

/-- The candidate r of `sqrt_ratio_i`, translated from the `requires`
clause of `lemma_sqrt_ratio_check_structure`:
r = ((u v^3) mod p) * ((u v^7 mod p)^((p-5)/8)) mod p. -/
def sqrtRatioCand (u v : ℕ) : ℕ :=
  (u * v * v * v) % p * powMod ((u * v * v * v * v * v * v * v) % p) sqrt_ratio_exponent p % p

/-- Translated from `check_equals_u_times_fourth_root` in
`specs/unused_sqrt_ratio_i_specs.rs`: the check value equals u times one
of the four fourth roots of unity 1, p - 1, i, (p - i) % p. -/
def check_equals_u_times_fourth_root (check u : ℕ) : Prop :=
  check % p = u * 1 % p ∨ check % p = u * (p - 1) % p ∨
  check % p = u * SQRT_M1 % p ∨ check % p = u * ((p - SQRT_M1) % p) % p

instance (check u : ℕ) : Decidable (check_equals_u_times_fourth_root check u) := by
  unfold check_equals_u_times_fourth_root
  exact inferInstance

/-- Modelled from the spec: the success flag of `sqrt_ratio` (spec section
4.1 read together with the failure taxonomy of sections 7-8): the call
succeeds exactly when the check v times r squared lands on u or -u mod p,
i.e. when a square root of u/v exists; the check landing on u times plus
or minus i is the no-square-root failure.  The four-candidate relation of
`lemma_sqrt_ratio_check_structure` describes the unconditional structure
of the check, not the success test.  `field.rs` is not in the source
tree. -/
def sqrt_ratio_flag (u v : ℕ) : Bool :=
  let check := v * sqrtRatioCand u v * sqrtRatioCand u v % p
  (check == u * 1 % p) || (check == u * (p - 1) % p)

/-- Modelled from the spec: the correction condition of `sqrt_ratio` (spec
section 4.1): the candidate is multiplied by i when the check lands on -u
or -u times i. -/
def sqrt_ratio_flip (u v : ℕ) : Bool :=
  let check := v * sqrtRatioCand u v * sqrtRatioCand u v % p
  (check == u * (p - 1) % p) || (check == u * ((p - SQRT_M1) % p) % p)

/-- Modelled from the spec: the corrected candidate of `sqrt_ratio` (spec
section 4.1): the candidate, multiplied by i in the flipped cases. -/
def sqrt_ratio_rp (u v : ℕ) : ℕ :=
  if sqrt_ratio_flip u v then SQRT_M1 * sqrtRatioCand u v % p else sqrtRatioCand u v

/-- Modelled from the spec: the root returned by `sqrt_ratio` (spec
section 4.1): the nonnegative - even - representative of the corrected
candidate; `field.rs` is not in the source tree. -/
def sqrt_ratio_root (u v : ℕ) : ℕ :=
  if sqrt_ratio_rp u v % 2 == 1 then (p - sqrt_ratio_rp u v) % p else sqrt_ratio_rp u v

/-- Modelled from the spec: `sqrt_ratio(u, v)` returns the success flag
and the root (spec section 4.1); named after the source function
`sqrt_ratio_i`. -/
def sqrt_ratio_i (u v : ℕ) : Bool × ℕ := (sqrt_ratio_flag u v, sqrt_ratio_root u v)

lemma mod_p_mod_p (a : ℕ) : a % p % p = a % p := Nat.mod_mod_of_dvd a dvd_rfl

/-- If c has a modular inverse and u * c vanishes mod p then u vanishes
mod p. -/
lemma unit_factor_zero (u c cInv : ℕ) (hc : c * cInv % p = 1 % p)
    (h : u * c % p = 0) : u % p = 0 := by
  have h1 : u * c * cInv % p = 0 := by
    rw [Nat.mul_mod, h, Nat.zero_mul, Nat.zero_mod]
  have h2 : u * (c * cInv) % p = u * 1 % p := by
    rw [Nat.mul_mod, hc, ← Nat.mul_mod]
  rw [← mul_assoc, h1] at h2
  rw [mul_one] at h2
  exact h2.symm

instance : NeZero p := ⟨by decide⟩

lemma fmul_lt (a b : ℕ) : fmul a b < p := Nat.mod_lt _ (by decide)

lemma fadd_lt (a b : ℕ) : fadd a b < p := Nat.mod_lt _ (by decide)

lemma cast_fadd (a b : ℕ) : ((fadd a b : ℕ) : ZMod p) = (a : ZMod p) + b := by
  rw [fadd, ZMod.natCast_mod, Nat.cast_add]

lemma cast_fmul (a b : ℕ) : ((fmul a b : ℕ) : ZMod p) = (a : ZMod p) * b := by
  rw [fmul, ZMod.natCast_mod, Nat.cast_mul]

lemma cast_fsub (a b : ℕ) : ((fsub a b : ℕ) : ZMod p) = (a : ZMod p) - b := by
  have hb : b % p ≤ a % p + p := le_trans (le_of_lt (Nat.mod_lt _ (by decide))) (Nat.le_add_left p _)
  rw [fsub, ZMod.natCast_mod, Nat.cast_sub hb, Nat.cast_add, ZMod.natCast_mod, ZMod.natCast_mod,
      ZMod.natCast_self]
  ring

lemma cast_fneg (a : ℕ) : ((fneg a : ℕ) : ZMod p) = -(a : ZMod p) := by
  have hb : a % p ≤ p := le_of_lt (Nat.mod_lt _ (by decide))
  rw [fneg, ZMod.natCast_mod, Nat.cast_sub hb, ZMod.natCast_mod, ZMod.natCast_self]
  ring

lemma eq_of_cast_eq (a b : ℕ) (ha : a < p) (hb : b < p)
    (h : (a : ZMod p) = b) : a = b := by
  have hv := congrArg ZMod.val h
  rwa [ZMod.val_cast_of_lt ha, ZMod.val_cast_of_lt hb] at hv

/-- The cast of p - 1 into ZMod p is -1. -/
lemma cast_p_sub_one : ((p - 1 : ℕ) : ZMod p) = -1 := by
  have h1 : (1 : ℕ) ≤ p := by decide
  rw [Nat.cast_sub h1, ZMod.natCast_self, Nat.cast_one]
  ring

/-- The cast of (p - a) % p into ZMod p is -a, for a < p. -/
lemma cast_p_sub_mod (a : ℕ) (ha : a < p) : (((p - a) % p : ℕ) : ZMod p) = -(a : ZMod p) := by
  have h : (p - a) % p = fneg a := by rw [fneg, Nat.mod_eq_of_lt ha]
  rw [h, cast_fneg]

/-- Fuel-driven modular exponentiation computes modular powers, for any
exponent below 2^fuel. -/
lemma powModAux_eq (f : ℕ) : ∀ b e m, e < 2 ^ f → powModAux f b e m = b ^ e % m := by
  induction f with
  | zero =>
    intro b e m he
    have he0 : e = 0 := by omega
    subst he0
    simp [powModAux]
  | succ f ih =>
    intro b e m he
    by_cases h0 : e = 0
    · subst h0
      simp [powModAux]
    · have h2 : e / 2 < 2 ^ f := by
        have hp2 : 2 ^ (f + 1) = 2 ^ f * 2 := by rw [pow_succ]
        rw [hp2] at he
        exact Nat.div_lt_iff_lt_mul (by norm_num) |>.mpr he
      have hr := ih (b * b % m) (e / 2) m h2
      simp only [powModAux, if_neg h0]
      rw [hr]
      have hbb : (b * b % m) ^ (e / 2) % m = b ^ (2 * (e / 2)) % m := by
        rw [← Nat.pow_mod, ← pow_two, ← pow_mul]
      by_cases h1 : e % 2 = 1
      · rw [if_pos h1]
        have he2 : 2 * (e / 2) + 1 = e := by omega
        calc b * ((b * b % m) ^ (e / 2) % m) % m
            = b * (b ^ (2 * (e / 2)) % m) % m := by rw [hbb]
          _ = b * b ^ (2 * (e / 2)) % m := by
              rw [Nat.mul_mod, Nat.mod_mod_of_dvd _ dvd_rfl, ← Nat.mul_mod]
          _ = b ^ (2 * (e / 2) + 1) % m := by rw [pow_succ']
          _ = b ^ e % m := by rw [he2]
      · rw [if_neg h1]
        have he2 : 2 * (e / 2) = e := by omega
        rw [hbb, he2]

/-- Modular exponentiation with fuel 256 computes modular powers for any
exponent below 2^256. -/
lemma powMod_eq (b e m : ℕ) (he : e < 2 ^ 256) : powMod b e m = b ^ e % m :=
  powModAux_eq 256 b e m he

lemma powMod_lt (b e m : ℕ) (hm : 0 < m) (he : e < 2 ^ 256) : powMod b e m < m := by
  rw [powMod_eq b e m he]
  exact Nat.mod_lt _ hm

/-- Casts of naturals below the modulus into ZMod are injective. -/
lemma zmod_natCast_inj (n a b : ℕ) (ha : a < n) (hb : b < n)
    (h : (a : ZMod n) = (b : ZMod n)) : a = b := by
  haveI : NeZero n := ⟨by omega⟩
  have hv := congrArg ZMod.val h
  rwa [ZMod.val_cast_of_lt ha, ZMod.val_cast_of_lt hb] at hv

/-- A kernel-checkable powMod identity yields a ZMod power identity. -/
lemma zmod_pow_eq_one (n a k : ℕ) (hk : k < 2 ^ 256)
    (h : powMod a k n = 1) : ((a : ℕ) : ZMod n) ^ k = 1 := by
  have h2 : ((powMod a k n : ℕ) : ZMod n) = ((a : ℕ) : ZMod n) ^ k := by
    rw [powMod_eq a k n hk, ZMod.natCast_mod, Nat.cast_pow]
  rw [← h2, h, Nat.cast_one]

/-- A kernel-checkable powMod disequality yields a ZMod power disequality. -/
lemma zmod_pow_ne_one (n a k : ℕ) (hk : k < 2 ^ 256) (hn : 1 < n)
    (h : powMod a k n ≠ 1) : ((a : ℕ) : ZMod n) ^ k ≠ 1 := by
  intro hcon
  apply h
  have h2 : ((powMod a k n : ℕ) : ZMod n) = ((1 : ℕ) : ZMod n) := by
    rw [powMod_eq a k n hk, ZMod.natCast_mod, Nat.cast_pow, hcon, Nat.cast_one]
  exact zmod_natCast_inj n _ 1 (powMod_lt a k n (by omega) hk) hn h2


/-!
Primality of p = 2^255 - 19, by a Pratt certificate chain: small factors
by trial division, large factors by the Lucas primality criterion with
kernel-checked modular exponentiation.  This underpins the Euler-criterion
direction of the sqrt_ratio and decompression claims.
-/

/-- Trial-division primality facts for the small primes of the Pratt
chain below. -/
lemma prime_2 : Nat.Prime 2 := by norm_num

lemma prime_3 : Nat.Prime 3 := by norm_num

lemma prime_5 : Nat.Prime 5 := by norm_num

lemma prime_7 : Nat.Prime 7 := by norm_num

lemma prime_13 : Nat.Prime 13 := by norm_num

lemma prime_19 : Nat.Prime 19 := by norm_num

lemma prime_31 : Nat.Prime 31 := by norm_num

lemma prime_47 : Nat.Prime 47 := by norm_num

lemma prime_107 : Nat.Prime 107 := by norm_num

lemma prime_127 : Nat.Prime 127 := by norm_num

lemma prime_223 : Nat.Prime 223 := by norm_num

lemma prime_353 : Nat.Prime 353 := by norm_num

lemma prime_2437 : Nat.Prime 2437 := by norm_num

lemma prime_4153 : Nat.Prime 4153 := by norm_num

lemma prime_57467 : Nat.Prime 57467 := by norm_num

lemma prime_65147 : Nat.Prime 65147 := by norm_num

lemma prime_75707 : Nat.Prime 75707 := by norm_num

lemma prime_132049 : Nat.Prime 132049 := by norm_num

lemma prime_430751 : Nat.Prime 430751 := by norm_num

lemma prime_569003 : Nat.Prime 569003 := by norm_num

lemma prime_1923133 : Nat.Prime 1923133 := by norm_num

lemma prime_8574133 : Nat.Prime 8574133 := by norm_num

set_option maxRecDepth 20000 in
/-- Pratt-chain node: 2773320623 is prime, by the Lucas certificate with
witness 5. -/
lemma pratt0 : Nat.Prime 2773320623 := by
  refine lucas_primality 2773320623 ((5 : ℕ) : ZMod 2773320623) ?_ ?_
  · exact zmod_pow_eq_one 2773320623 5 (2773320623 - 1) (by decide) (by decide)
  · intro q hq hdvd
    have hfac : 2773320623 - 1 = 2 * (2437 * (569003)) := by decide
    rw [hfac] at hdvd
    rcases (Nat.Prime.dvd_mul hq).mp hdvd with h | hdvd1
    · have he : q = 2 := (Nat.prime_dvd_prime_iff_eq hq prime_2).mp h
      subst he
      exact zmod_pow_ne_one 2773320623 5 ((2773320623 - 1) / 2) (by decide) (by decide) (by decide)
    rcases (Nat.Prime.dvd_mul hq).mp hdvd1 with h | hdvd2
    · have he : q = 2437 := (Nat.prime_dvd_prime_iff_eq hq prime_2437).mp h
      subst he
      exact zmod_pow_ne_one 2773320623 5 ((2773320623 - 1) / 2437) (by decide) (by decide) (by decide)
    have he : q = 569003 := (Nat.prime_dvd_prime_iff_eq hq prime_569003).mp hdvd2
    subst he
    exact zmod_pow_ne_one 2773320623 5 ((2773320623 - 1) / 569003) (by decide) (by decide) (by decide)

set_option maxRecDepth 20000 in
/-- Pratt-chain node: 72106336199 is prime, by the Lucas certificate with
witness 7. -/
lemma pratt1 : Nat.Prime 72106336199 := by
  refine lucas_primality 72106336199 ((7 : ℕ) : ZMod 72106336199) ?_ ?_
  · exact zmod_pow_eq_one 72106336199 7 (72106336199 - 1) (by decide) (by decide)
  · intro q hq hdvd
    have hfac : 72106336199 - 1 = 2 * (13 * (2773320623)) := by decide
    rw [hfac] at hdvd
    rcases (Nat.Prime.dvd_mul hq).mp hdvd with h | hdvd1
    · have he : q = 2 := (Nat.prime_dvd_prime_iff_eq hq prime_2).mp h
      subst he
      exact zmod_pow_ne_one 72106336199 7 ((72106336199 - 1) / 2) (by decide) (by decide) (by decide)
    rcases (Nat.Prime.dvd_mul hq).mp hdvd1 with h | hdvd2
    · have he : q = 13 := (Nat.prime_dvd_prime_iff_eq hq prime_13).mp h
      subst he
      exact zmod_pow_ne_one 72106336199 7 ((72106336199 - 1) / 13) (by decide) (by decide) (by decide)
    have he : q = 2773320623 := (Nat.prime_dvd_prime_iff_eq hq pratt0).mp hdvd2
    subst he
    exact zmod_pow_ne_one 72106336199 7 ((72106336199 - 1) / 2773320623) (by decide) (by decide) (by decide)

set_option maxRecDepth 20000 in
/-- Pratt-chain node: 1919519569386763 is prime, by the Lucas certificate with
witness 2. -/
lemma pratt2 : Nat.Prime 1919519569386763 := by
  refine lucas_primality 1919519569386763 ((2 : ℕ) : ZMod 1919519569386763) ?_ ?_
  · exact zmod_pow_eq_one 1919519569386763 2 (1919519569386763 - 1) (by decide) (by decide)
  · intro q hq hdvd
    have hfac : 1919519569386763 - 1 = 2 * (3 * (7 * (19 * (47 ^ 2 * (127 * (8574133)))))) := by decide
    rw [hfac] at hdvd
    rcases (Nat.Prime.dvd_mul hq).mp hdvd with h | hdvd1
    · have he : q = 2 := (Nat.prime_dvd_prime_iff_eq hq prime_2).mp h
      subst he
      exact zmod_pow_ne_one 1919519569386763 2 ((1919519569386763 - 1) / 2) (by decide) (by decide) (by decide)
    rcases (Nat.Prime.dvd_mul hq).mp hdvd1 with h | hdvd2
    · have he : q = 3 := (Nat.prime_dvd_prime_iff_eq hq prime_3).mp h
      subst he
      exact zmod_pow_ne_one 1919519569386763 2 ((1919519569386763 - 1) / 3) (by decide) (by decide) (by decide)
    rcases (Nat.Prime.dvd_mul hq).mp hdvd2 with h | hdvd3
    · have he : q = 7 := (Nat.prime_dvd_prime_iff_eq hq prime_7).mp h
      subst he
      exact zmod_pow_ne_one 1919519569386763 2 ((1919519569386763 - 1) / 7) (by decide) (by decide) (by decide)
    rcases (Nat.Prime.dvd_mul hq).mp hdvd3 with h | hdvd4
    · have he : q = 19 := (Nat.prime_dvd_prime_iff_eq hq prime_19).mp h
      subst he
      exact zmod_pow_ne_one 1919519569386763 2 ((1919519569386763 - 1) / 19) (by decide) (by decide) (by decide)
    rcases (Nat.Prime.dvd_mul hq).mp hdvd4 with h | hdvd5
    · have he : q = 47 := (Nat.prime_dvd_prime_iff_eq hq prime_47).mp (Nat.Prime.dvd_of_dvd_pow hq h)
      subst he
      exact zmod_pow_ne_one 1919519569386763 2 ((1919519569386763 - 1) / 47) (by decide) (by decide) (by decide)
    rcases (Nat.Prime.dvd_mul hq).mp hdvd5 with h | hdvd6
    · have he : q = 127 := (Nat.prime_dvd_prime_iff_eq hq prime_127).mp h
      subst he
      exact zmod_pow_ne_one 1919519569386763 2 ((1919519569386763 - 1) / 127) (by decide) (by decide) (by decide)
    have he : q = 8574133 := (Nat.prime_dvd_prime_iff_eq hq prime_8574133).mp hdvd6
    subst he
    exact zmod_pow_ne_one 1919519569386763 2 ((1919519569386763 - 1) / 8574133) (by decide) (by decide) (by decide)

set_option maxRecDepth 20000 in
/-- Pratt-chain node: 31757755568855353 is prime, by the Lucas certificate with
witness 10. -/
lemma pratt3 : Nat.Prime 31757755568855353 := by
  refine lucas_primality 31757755568855353 ((10 : ℕ) : ZMod 31757755568855353) ?_ ?_
  · exact zmod_pow_eq_one 31757755568855353 10 (31757755568855353 - 1) (by decide) (by decide)
  · intro q hq hdvd
    have hfac : 31757755568855353 - 1 = 2 ^ 3 * (3 * (31 * (107 * (223 * (4153 * (430751)))))) := by decide
    rw [hfac] at hdvd
    rcases (Nat.Prime.dvd_mul hq).mp hdvd with h | hdvd1
    · have he : q = 2 := (Nat.prime_dvd_prime_iff_eq hq prime_2).mp (Nat.Prime.dvd_of_dvd_pow hq h)
      subst he
      exact zmod_pow_ne_one 31757755568855353 10 ((31757755568855353 - 1) / 2) (by decide) (by decide) (by decide)
    rcases (Nat.Prime.dvd_mul hq).mp hdvd1 with h | hdvd2
    · have he : q = 3 := (Nat.prime_dvd_prime_iff_eq hq prime_3).mp h
      subst he
      exact zmod_pow_ne_one 31757755568855353 10 ((31757755568855353 - 1) / 3) (by decide) (by decide) (by decide)
    rcases (Nat.Prime.dvd_mul hq).mp hdvd2 with h | hdvd3
    · have he : q = 31 := (Nat.prime_dvd_prime_iff_eq hq prime_31).mp h
      subst he
      exact zmod_pow_ne_one 31757755568855353 10 ((31757755568855353 - 1) / 31) (by decide) (by decide) (by decide)
    rcases (Nat.Prime.dvd_mul hq).mp hdvd3 with h | hdvd4
    · have he : q = 107 := (Nat.prime_dvd_prime_iff_eq hq prime_107).mp h
      subst he
      exact zmod_pow_ne_one 31757755568855353 10 ((31757755568855353 - 1) / 107) (by decide) (by decide) (by decide)
    rcases (Nat.Prime.dvd_mul hq).mp hdvd4 with h | hdvd5
    · have he : q = 223 := (Nat.prime_dvd_prime_iff_eq hq prime_223).mp h
      subst he
      exact zmod_pow_ne_one 31757755568855353 10 ((31757755568855353 - 1) / 223) (by decide) (by decide) (by decide)
    rcases (Nat.Prime.dvd_mul hq).mp hdvd5 with h | hdvd6
    · have he : q = 4153 := (Nat.prime_dvd_prime_iff_eq hq prime_4153).mp h
      subst he
      exact zmod_pow_ne_one 31757755568855353 10 ((31757755568855353 - 1) / 4153) (by decide) (by decide) (by decide)
    have he : q = 430751 := (Nat.prime_dvd_prime_iff_eq hq prime_430751).mp hdvd6
    subst he
    exact zmod_pow_ne_one 31757755568855353 10 ((31757755568855353 - 1) / 430751) (by decide) (by decide) (by decide)

set_option maxRecDepth 20000 in
/-- Pratt-chain node: 75445702479781427272750846543864801 is prime, by the Lucas certificate with
witness 7. -/
lemma pratt4 : Nat.Prime 75445702479781427272750846543864801 := by
  refine lucas_primality 75445702479781427272750846543864801 ((7 : ℕ) : ZMod 75445702479781427272750846543864801) ?_ ?_
  · exact zmod_pow_eq_one 75445702479781427272750846543864801 7 (75445702479781427272750846543864801 - 1) (by decide) (by decide)
  · intro q hq hdvd
    have hfac : 75445702479781427272750846543864801 - 1 = 2 ^ 5 * (3 ^ 2 * (5 ^ 2 * (75707 * (72106336199 * (1919519569386763))))) := by decide
    rw [hfac] at hdvd
    rcases (Nat.Prime.dvd_mul hq).mp hdvd with h | hdvd1
    · have he : q = 2 := (Nat.prime_dvd_prime_iff_eq hq prime_2).mp (Nat.Prime.dvd_of_dvd_pow hq h)
      subst he
      exact zmod_pow_ne_one 75445702479781427272750846543864801 7 ((75445702479781427272750846543864801 - 1) / 2) (by decide) (by decide) (by decide)
    rcases (Nat.Prime.dvd_mul hq).mp hdvd1 with h | hdvd2
    · have he : q = 3 := (Nat.prime_dvd_prime_iff_eq hq prime_3).mp (Nat.Prime.dvd_of_dvd_pow hq h)
      subst he
      exact zmod_pow_ne_one 75445702479781427272750846543864801 7 ((75445702479781427272750846543864801 - 1) / 3) (by decide) (by decide) (by decide)
    rcases (Nat.Prime.dvd_mul hq).mp hdvd2 with h | hdvd3
    · have he : q = 5 := (Nat.prime_dvd_prime_iff_eq hq prime_5).mp (Nat.Prime.dvd_of_dvd_pow hq h)
      subst he
      exact zmod_pow_ne_one 75445702479781427272750846543864801 7 ((75445702479781427272750846543864801 - 1) / 5) (by decide) (by decide) (by decide)
    rcases (Nat.Prime.dvd_mul hq).mp hdvd3 with h | hdvd4
    · have he : q = 75707 := (Nat.prime_dvd_prime_iff_eq hq prime_75707).mp h
      subst he
      exact zmod_pow_ne_one 75445702479781427272750846543864801 7 ((75445702479781427272750846543864801 - 1) / 75707) (by decide) (by decide) (by decide)
    rcases (Nat.Prime.dvd_mul hq).mp hdvd4 with h | hdvd5
    · have he : q = 72106336199 := (Nat.prime_dvd_prime_iff_eq hq pratt1).mp h
      subst he
      exact zmod_pow_ne_one 75445702479781427272750846543864801 7 ((75445702479781427272750846543864801 - 1) / 72106336199) (by decide) (by decide) (by decide)
    have he : q = 1919519569386763 := (Nat.prime_dvd_prime_iff_eq hq pratt2).mp hdvd5
    subst he
    exact zmod_pow_ne_one 75445702479781427272750846543864801 7 ((75445702479781427272750846543864801 - 1) / 1919519569386763) (by decide) (by decide) (by decide)

set_option maxRecDepth 20000 in
/-- Pratt-chain node: 74058212732561358302231226437062788676166966415465897661863160754340907 is prime, by the Lucas certificate with
witness 2. -/
lemma pratt5 : Nat.Prime 74058212732561358302231226437062788676166966415465897661863160754340907 := by
  refine lucas_primality 74058212732561358302231226437062788676166966415465897661863160754340907 ((2 : ℕ) : ZMod 74058212732561358302231226437062788676166966415465897661863160754340907) ?_ ?_
  · exact zmod_pow_eq_one 74058212732561358302231226437062788676166966415465897661863160754340907 2 (74058212732561358302231226437062788676166966415465897661863160754340907 - 1) (by decide) (by decide)
  · intro q hq hdvd
    have hfac : 74058212732561358302231226437062788676166966415465897661863160754340907 - 1 = 2 * (3 * (353 * (57467 * (132049 * (1923133 * (31757755568855353 * (75445702479781427272750846543864801))))))) := by decide
    rw [hfac] at hdvd
    rcases (Nat.Prime.dvd_mul hq).mp hdvd with h | hdvd1
    · have he : q = 2 := (Nat.prime_dvd_prime_iff_eq hq prime_2).mp h
      subst he
      exact zmod_pow_ne_one 74058212732561358302231226437062788676166966415465897661863160754340907 2 ((74058212732561358302231226437062788676166966415465897661863160754340907 - 1) / 2) (by decide) (by decide) (by decide)
    rcases (Nat.Prime.dvd_mul hq).mp hdvd1 with h | hdvd2
    · have he : q = 3 := (Nat.prime_dvd_prime_iff_eq hq prime_3).mp h
      subst he
      exact zmod_pow_ne_one 74058212732561358302231226437062788676166966415465897661863160754340907 2 ((74058212732561358302231226437062788676166966415465897661863160754340907 - 1) / 3) (by decide) (by decide) (by decide)
    rcases (Nat.Prime.dvd_mul hq).mp hdvd2 with h | hdvd3
    · have he : q = 353 := (Nat.prime_dvd_prime_iff_eq hq prime_353).mp h
      subst he
      exact zmod_pow_ne_one 74058212732561358302231226437062788676166966415465897661863160754340907 2 ((74058212732561358302231226437062788676166966415465897661863160754340907 - 1) / 353) (by decide) (by decide) (by decide)
    rcases (Nat.Prime.dvd_mul hq).mp hdvd3 with h | hdvd4
    · have he : q = 57467 := (Nat.prime_dvd_prime_iff_eq hq prime_57467).mp h
      subst he
      exact zmod_pow_ne_one 74058212732561358302231226437062788676166966415465897661863160754340907 2 ((74058212732561358302231226437062788676166966415465897661863160754340907 - 1) / 57467) (by decide) (by decide) (by decide)
    rcases (Nat.Prime.dvd_mul hq).mp hdvd4 with h | hdvd5
    · have he : q = 132049 := (Nat.prime_dvd_prime_iff_eq hq prime_132049).mp h
      subst he
      exact zmod_pow_ne_one 74058212732561358302231226437062788676166966415465897661863160754340907 2 ((74058212732561358302231226437062788676166966415465897661863160754340907 - 1) / 132049) (by decide) (by decide) (by decide)
    rcases (Nat.Prime.dvd_mul hq).mp hdvd5 with h | hdvd6
    · have he : q = 1923133 := (Nat.prime_dvd_prime_iff_eq hq prime_1923133).mp h
      subst he
      exact zmod_pow_ne_one 74058212732561358302231226437062788676166966415465897661863160754340907 2 ((74058212732561358302231226437062788676166966415465897661863160754340907 - 1) / 1923133) (by decide) (by decide) (by decide)
    rcases (Nat.Prime.dvd_mul hq).mp hdvd6 with h | hdvd7
    · have he : q = 31757755568855353 := (Nat.prime_dvd_prime_iff_eq hq pratt3).mp h
      subst he
      exact zmod_pow_ne_one 74058212732561358302231226437062788676166966415465897661863160754340907 2 ((74058212732561358302231226437062788676166966415465897661863160754340907 - 1) / 31757755568855353) (by decide) (by decide) (by decide)
    have he : q = 75445702479781427272750846543864801 := (Nat.prime_dvd_prime_iff_eq hq pratt4).mp hdvd7
    subst he
    exact zmod_pow_ne_one 74058212732561358302231226437062788676166966415465897661863160754340907 2 ((74058212732561358302231226437062788676166966415465897661863160754340907 - 1) / 75445702479781427272750846543864801) (by decide) (by decide) (by decide)

set_option maxRecDepth 20000 in
/-- Pratt-chain node: 57896044618658097711785492504343953926634992332820282019728792003956564819949 is prime, by the Lucas certificate with
witness 2. -/
lemma pratt6 : Nat.Prime 57896044618658097711785492504343953926634992332820282019728792003956564819949 := by
  refine lucas_primality 57896044618658097711785492504343953926634992332820282019728792003956564819949 ((2 : ℕ) : ZMod 57896044618658097711785492504343953926634992332820282019728792003956564819949) ?_ ?_
  · exact zmod_pow_eq_one 57896044618658097711785492504343953926634992332820282019728792003956564819949 2 (57896044618658097711785492504343953926634992332820282019728792003956564819949 - 1) (by decide) (by decide)
  · intro q hq hdvd
    have hfac : 57896044618658097711785492504343953926634992332820282019728792003956564819949 - 1 = 2 ^ 2 * (3 * (65147 * (74058212732561358302231226437062788676166966415465897661863160754340907))) := by decide
    rw [hfac] at hdvd
    rcases (Nat.Prime.dvd_mul hq).mp hdvd with h | hdvd1
    · have he : q = 2 := (Nat.prime_dvd_prime_iff_eq hq prime_2).mp (Nat.Prime.dvd_of_dvd_pow hq h)
      subst he
      exact zmod_pow_ne_one 57896044618658097711785492504343953926634992332820282019728792003956564819949 2 ((57896044618658097711785492504343953926634992332820282019728792003956564819949 - 1) / 2) (by decide) (by decide) (by decide)
    rcases (Nat.Prime.dvd_mul hq).mp hdvd1 with h | hdvd2
    · have he : q = 3 := (Nat.prime_dvd_prime_iff_eq hq prime_3).mp h
      subst he
      exact zmod_pow_ne_one 57896044618658097711785492504343953926634992332820282019728792003956564819949 2 ((57896044618658097711785492504343953926634992332820282019728792003956564819949 - 1) / 3) (by decide) (by decide) (by decide)
    rcases (Nat.Prime.dvd_mul hq).mp hdvd2 with h | hdvd3
    · have he : q = 65147 := (Nat.prime_dvd_prime_iff_eq hq prime_65147).mp h
      subst he
      exact zmod_pow_ne_one 57896044618658097711785492504343953926634992332820282019728792003956564819949 2 ((57896044618658097711785492504343953926634992332820282019728792003956564819949 - 1) / 65147) (by decide) (by decide) (by decide)
    have he : q = 74058212732561358302231226437062788676166966415465897661863160754340907 := (Nat.prime_dvd_prime_iff_eq hq pratt5).mp hdvd3
    subst he
    exact zmod_pow_ne_one 57896044618658097711785492504343953926634992332820282019728792003956564819949 2 ((57896044618658097711785492504343953926634992332820282019728792003956564819949 - 1) / 74058212732561358302231226437062788676166966415465897661863160754340907) (by decide) (by decide) (by decide)

/-- The field prime p = 2^255 - 19 is prime: top of the Pratt chain. -/
lemma p_prime : Nat.Prime p := by
  have h : p = 57896044618658097711785492504343953926634992332820282019728792003956564819949 := by decide
  rw [h]
  exact pratt6

instance : Fact (Nat.Prime p) := ⟨p_prime⟩

lemma sqrtRatioCand_lt (u v : ℕ) : sqrtRatioCand u v < p := Nat.mod_lt _ (by decide)

lemma sqrt_ratio_rp_lt (u v : ℕ) : sqrt_ratio_rp u v < p := by
  unfold sqrt_ratio_rp
  split_ifs
  · exact Nat.mod_lt _ (by decide)
  · exact sqrtRatioCand_lt u v

lemma sqrt_ratio_root_lt (u v : ℕ) : sqrt_ratio_root u v < p := by
  unfold sqrt_ratio_root
  split_ifs
  · exact Nat.mod_lt _ (by decide)
  · exact sqrt_ratio_rp_lt u v

/-- The success flag holds exactly when the check value equals u or -u
mod p. -/
lemma flag_iff (u v : ℕ) : sqrt_ratio_flag u v = true ↔
    v * sqrtRatioCand u v * sqrtRatioCand u v % p = u * 1 % p ∨
    v * sqrtRatioCand u v * sqrtRatioCand u v % p = u * (p - 1) % p := by
  simp only [sqrt_ratio_flag, Bool.or_eq_true, beq_iff_eq]

/-- The flip condition holds exactly when the check value equals -u or
-u*i mod p. -/
lemma flip_iff (u v : ℕ) : sqrt_ratio_flip u v = true ↔
    v * sqrtRatioCand u v * sqrtRatioCand u v % p = u * (p - 1) % p ∨
    v * sqrtRatioCand u v * sqrtRatioCand u v % p = u * ((p - SQRT_M1) % p) % p := by
  simp only [sqrt_ratio_flip, Bool.or_eq_true, beq_iff_eq]

/-- The square of the returned root agrees with the square of the
corrected candidate rp. -/
lemma sqrt_ratio_root_sq_cast (u v : ℕ) :
    (sqrt_ratio_root u v : ZMod p) * (sqrt_ratio_root u v : ZMod p) =
    (sqrt_ratio_rp u v : ZMod p) * (sqrt_ratio_rp u v : ZMod p) := by
  unfold sqrt_ratio_root
  split_ifs
  · rw [cast_p_sub_mod _ (sqrt_ratio_rp_lt u v)]
    ring
  · rfl

/-- On success the returned root x satisfies x * x * v = u mod p. -/
lemma sqrt_ratio_root_correct (u v : ℕ) (h : sqrt_ratio_flag u v = true) :
    sqrt_ratio_root u v * sqrt_ratio_root u v * v % p = u % p := by
  have hflag := (flag_iff u v).mp h
  refine eq_of_cast_eq _ _ (Nat.mod_lt _ (by decide)) (Nat.mod_lt _ (by decide)) ?_
  rw [ZMod.natCast_mod, ZMod.natCast_mod, Nat.cast_mul, Nat.cast_mul]
  rw [sqrt_ratio_root_sq_cast]
  have hi2 : (SQRT_M1 : ZMod p) * SQRT_M1 = -1 := by
    have hN : SQRT_M1 * SQRT_M1 % p = p - 1 := by decide
    have := congrArg (Nat.cast (R := ZMod p)) hN
    rwa [ZMod.natCast_mod, Nat.cast_mul, cast_p_sub_one] at this
  unfold sqrt_ratio_rp
  by_cases hflip : sqrt_ratio_flip u v = true
  · rw [if_pos hflip]
    rw [ZMod.natCast_mod, Nat.cast_mul]
    -- goal: (i * r) * (i * r) * v = u in ZMod p
    have hgoal : ((SQRT_M1 : ZMod p) * sqrtRatioCand u v) * ((SQRT_M1 : ZMod p) * sqrtRatioCand u v) * v
        = -((v : ZMod p) * sqrtRatioCand u v * sqrtRatioCand u v) := by
      have : ((SQRT_M1 : ZMod p) * sqrtRatioCand u v) * ((SQRT_M1 : ZMod p) * sqrtRatioCand u v) * v
          = ((SQRT_M1 : ZMod p) * SQRT_M1) * ((v : ZMod p) * sqrtRatioCand u v * sqrtRatioCand u v) := by
        ring
      rw [this, hi2]
      ring
    rw [hgoal]
    -- need: -(check) = u in ZMod p
    rcases (flip_iff u v).mp hflip with hN | hN2
    · -- check = u * (p - 1) mod p as naturals
      have := congrArg (Nat.cast (R := ZMod p)) hN
      rw [ZMod.natCast_mod, ZMod.natCast_mod, Nat.cast_mul, Nat.cast_mul, Nat.cast_mul,
        cast_p_sub_one] at this
      rw [this]
      ring
    · -- check = u * (- i) mod p; combined with the flag, u must vanish
      have hc2 : ((v : ZMod p) * sqrtRatioCand u v * sqrtRatioCand u v)
          = (u : ZMod p) * (-(SQRT_M1 : ZMod p)) := by
        have := congrArg (Nat.cast (R := ZMod p)) hN2
        rwa [ZMod.natCast_mod, ZMod.natCast_mod, Nat.cast_mul, Nat.cast_mul, Nat.cast_mul,
          cast_p_sub_mod _ (by decide)] at this
      have hc1 : ((v : ZMod p) * sqrtRatioCand u v * sqrtRatioCand u v) = (u : ZMod p) := by
        rcases hflag with hg | hg
        · have := congrArg (Nat.cast (R := ZMod p)) hg
          rwa [ZMod.natCast_mod, ZMod.natCast_mod, Nat.cast_mul, Nat.cast_mul, Nat.cast_mul,
            Nat.cast_one, mul_one] at this
        · -- this branch is the first flip disjunct; derive the same conclusion
          have := congrArg (Nat.cast (R := ZMod p)) hg
          rw [ZMod.natCast_mod, ZMod.natCast_mod, Nat.cast_mul, Nat.cast_mul, Nat.cast_mul,
            cast_p_sub_one] at this
          -- check = -u and check = -u*i: then u (1 - i) ... handle via u = 0 below
          rw [this] at hc2
          -- -u = u * -i : u * (1 - i) = 0
          have hzero : (u : ZMod p) * (1 - (SQRT_M1 : ZMod p)) = 0 := by
            linear_combination -hc2
          have hfac : (1 - (SQRT_M1 : ZMod p)) ≠ 0 := by
            intro h0
            have h1 : (SQRT_M1 : ZMod p) = ((1 : ℕ) : ZMod p) := by
              rw [Nat.cast_one]
              linear_combination -h0
            have := zmod_natCast_inj p SQRT_M1 1 (by decide) (by decide) h1
            exact absurd this (by decide)
          have hu0 : (u : ZMod p) = 0 :=
            (mul_eq_zero.mp hzero).resolve_right hfac
          rw [this, hu0]
          ring
      rw [hc1] at hc2
      -- u = -u * i : u * (1 + i) = 0
      have hzero : (u : ZMod p) * (1 + (SQRT_M1 : ZMod p)) = 0 := by
        linear_combination hc2
      have hfac : (1 + (SQRT_M1 : ZMod p)) ≠ 0 := by
        intro h0
        have h1 : (SQRT_M1 : ZMod p) = (((p - 1) : ℕ) : ZMod p) := by
          rw [cast_p_sub_one]
          linear_combination h0
        have := zmod_natCast_inj p SQRT_M1 (p - 1) (by decide) (by decide) h1
        exact absurd this (by decide)
      have hu0 : (u : ZMod p) = 0 :=
        (mul_eq_zero.mp hzero).resolve_right hfac
      rw [hc1, hu0]
      ring
  · rw [if_neg hflip]
    -- not flipped: the check cannot be u * (p-1), so the flag gives check = u * 1
    have hne : ¬ v * sqrtRatioCand u v * sqrtRatioCand u v % p = u * (p - 1) % p := by
      intro hb
      exact hflip ((flip_iff u v).mpr (Or.inl hb))
    have hc1 : v * sqrtRatioCand u v * sqrtRatioCand u v % p = u * 1 % p := by
      rcases hflag with hg | hg
      · exact hg
      · exact absurd hg hne
    have := congrArg (Nat.cast (R := ZMod p)) hc1
    rw [ZMod.natCast_mod, ZMod.natCast_mod, Nat.cast_mul, Nat.cast_mul, Nat.cast_mul,
      Nat.cast_one, mul_one] at this
    linear_combination this

/-- When u vanishes mod p the candidate is 0 and sqrt_ratio succeeds. -/
lemma flag_true_of_u_zero (u v : ℕ) (hu : u % p = 0) : sqrt_ratio_flag u v = true := by
  rw [flag_iff]
  left
  have hd : p ∣ u := Nat.dvd_of_mod_eq_zero hu
  have h1 : u * v * v * v % p = 0 :=
    Nat.mod_eq_zero_of_dvd (((hd.mul_right v).mul_right v).mul_right v)
  have hr : sqrtRatioCand u v = 0 := by
    rw [sqrtRatioCand, h1, Nat.zero_mul, Nat.zero_mod]
  rw [hr, Nat.mul_zero, Nat.zero_mod, Nat.mul_one, hu]

/-- When v vanishes mod p but u does not, sqrt_ratio fails. -/
lemma flag_false_of_v_zero (u v : ℕ) (hv : v % p = 0) (hu : u % p ≠ 0) :
    sqrt_ratio_flag u v = false := by
  have hc : v * sqrtRatioCand u v * sqrtRatioCand u v % p = 0 :=
    Nat.mod_eq_zero_of_dvd (((Nat.dvd_of_mod_eq_zero hv).mul_right _).mul_right _)
  rw [Bool.eq_false_iff]
  intro h
  rcases (flag_iff u v).mp h with h1 | h1 <;> rw [hc] at h1
  · rw [Nat.mul_one] at h1
    exact hu h1.symm
  · exact hu (unit_factor_zero u (p - 1) (p - 1) (by decide) h1.symm)

/-- The cast of the sqrt_ratio candidate into ZMod p. -/
lemma cast_sqrtRatioCand (u v : ℕ) : ((sqrtRatioCand u v : ℕ) : ZMod p) =
    (u : ZMod p) * v * v * v *
      ((u : ZMod p) * v * v * v * v * v * v * v) ^ sqrt_ratio_exponent := by
  have hpm : powMod ((u * v * v * v * v * v * v * v) % p) sqrt_ratio_exponent p
      = ((u * v * v * v * v * v * v * v) % p) ^ sqrt_ratio_exponent % p :=
    powMod_eq _ _ _ (by decide)
  rw [sqrtRatioCand, hpm]
  push_cast [ZMod.natCast_mod]
  ring

/-- Euler direction: when v is a unit and u/v has a square root, the
sqrt_ratio check lands on u or -u and the flag is set. -/
lemma flag_true_of_root (u v x : ℕ) (hv : v % p ≠ 0)
    (hx : x * x * v % p = u % p) : sqrt_ratio_flag u v = true := by
  by_cases hu : u % p = 0
  · exact flag_true_of_u_zero u v hu
  · have hU0 : (u : ZMod p) ≠ 0 := by
      intro h0
      exact hu (Nat.mod_eq_zero_of_dvd ((ZMod.natCast_zmod_eq_zero_iff_dvd u p).mp h0))
    have hV0 : (v : ZMod p) ≠ 0 := by
      intro h0
      exact hv (Nat.mod_eq_zero_of_dvd ((ZMod.natCast_zmod_eq_zero_iff_dvd v p).mp h0))
    have hXV : (x : ZMod p) * x * v = u := by
      have := congrArg (Nat.cast (R := ZMod p)) hx
      rwa [ZMod.natCast_mod, ZMod.natCast_mod, Nat.cast_mul, Nat.cast_mul] at this
    have hX0 : (x : ZMod p) ≠ 0 := by
      intro h0
      rw [h0, zero_mul, zero_mul] at hXV
      exact hU0 hXV.symm
    set w : ZMod p := (x : ZMod p) * (v * v * v * v) with hw
    have hw0 : w ≠ 0 :=
      mul_ne_zero hX0 (mul_ne_zero (mul_ne_zero (mul_ne_zero hV0 hV0) hV0) hV0)
    have hbase : (u : ZMod p) * v * v * v * v * v * v * v = w * w := by
      rw [← hXV, hw]
      ring
    have hc : ((v * sqrtRatioCand u v * sqrtRatioCand u v % p : ℕ) : ZMod p)
        = (u : ZMod p) * w ^ ((p - 1) / 2) := by
      rw [ZMod.natCast_mod, Nat.cast_mul, Nat.cast_mul, cast_sqrtRatioCand, hbase]
      have h1 : (w * w) ^ sqrt_ratio_exponent * (w * w) ^ sqrt_ratio_exponent * (w * w)
          = w ^ (4 * sqrt_ratio_exponent + 2) := by
        rw [← pow_add, ← pow_succ, ← pow_two, ← pow_mul]
        have he : 2 * (sqrt_ratio_exponent + sqrt_ratio_exponent + 1)
            = 4 * sqrt_ratio_exponent + 2 := by ring
        rw [he]
      have h2 : 4 * sqrt_ratio_exponent + 2 = (p - 1) / 2 := by decide
      calc (v : ZMod p) *
            ((u : ZMod p) * v * v * v * (w * w) ^ sqrt_ratio_exponent) *
            ((u : ZMod p) * v * v * v * (w * w) ^ sqrt_ratio_exponent)
          = ((u : ZMod p) * ((u : ZMod p) * v * v * v * v * v * v * v)) *
            ((w * w) ^ sqrt_ratio_exponent * (w * w) ^ sqrt_ratio_exponent) := by ring
        _ = (u : ZMod p) *
            ((w * w) ^ sqrt_ratio_exponent * (w * w) ^ sqrt_ratio_exponent * (w * w)) := by
            rw [hbase]; ring
        _ = (u : ZMod p) * w ^ (4 * sqrt_ratio_exponent + 2) := by rw [h1]
        _ = (u : ZMod p) * w ^ ((p - 1) / 2) := by rw [h2]
    have hEuler : w ^ ((p - 1) / 2) = 1 ∨ w ^ ((p - 1) / 2) = -1 := by
      have hferm : w ^ (p - 1) = 1 := ZMod.pow_card_sub_one_eq_one hw0
      have hhalf : (p - 1) / 2 + (p - 1) / 2 = p - 1 := by decide
      have hsq : w ^ ((p - 1) / 2) * w ^ ((p - 1) / 2) = 1 := by
        rw [← pow_add, hhalf, hferm]
      exact mul_self_eq_one_iff.mp hsq
    rw [flag_iff]
    rcases hEuler with hE | hE
    · left
      apply eq_of_cast_eq _ _ (Nat.mod_lt _ (by decide)) (Nat.mod_lt _ (by decide))
      rw [hc, hE, mul_one, ZMod.natCast_mod, Nat.cast_mul, Nat.cast_one, mul_one]
    · right
      apply eq_of_cast_eq _ _ (Nat.mod_lt _ (by decide)) (Nat.mod_lt _ (by decide))
      rw [hc, hE, ZMod.natCast_mod, Nat.cast_mul, cast_p_sub_one]


/-- C2 counterexample: at (u, v) = (2, 1), v is a unit and the four-root
relation of the claim holds (the check equals u·i), yet sqrt_ratio
reports failure — 2 is not a square mod p; and at (u, v) = (0, 0), v
vanishes mod p yet sqrt_ratio succeeds. -/
theorem sqrt_ratio_claim_counterexample :
    (1 : ℕ) % p ≠ 0 ∧
    check_equals_u_times_fourth_root (1 * sqrtRatioCand 2 1 * sqrtRatioCand 2 1 % p) 2 ∧
    sqrt_ratio_flag 2 1 = false ∧
    (0 : ℕ) % p = 0 ∧ sqrt_ratio_flag 0 0 = true := by
  refine ⟨by decide, by decide, by decide, by decide, by decide⟩

/-- C2 (amended): for v a unit mod p, sqrt_ratio succeeds iff u/v has a
square root (iff the check lands on u or -u, not on u·±i); on success the
returned root is an actual square root; for v ≡ 0 it fails when u is a
unit and succeeds (returning 0) when u ≡ 0. -/
theorem sqrt_ratio_success_iff (u v : ℕ) :
    (v % p ≠ 0 →
      (sqrt_ratio_flag u v = true ↔ ∃ x, x * x * v % p = u % p)) ∧
    (sqrt_ratio_flag u v = true →
      sqrt_ratio_root u v * sqrt_ratio_root u v * v % p = u % p) ∧
    (v % p = 0 → u % p ≠ 0 → sqrt_ratio_flag u v = false) ∧
    (v % p = 0 → u % p = 0 → sqrt_ratio_flag u v = true) := by
  refine ⟨fun hv => ⟨fun h => ?_, fun hex => ?_⟩, fun h => ?_, fun hv hu => ?_, fun hv hu => ?_⟩
  · exact ⟨sqrt_ratio_root u v, sqrt_ratio_root_correct u v h⟩
  · obtain ⟨x, hx⟩ := hex
    exact flag_true_of_root u v x hv hx
  · exact sqrt_ratio_root_correct u v h
  · exact flag_false_of_v_zero u v hv hu
  · exact flag_true_of_u_zero u v hu

/-- Witness for C2: at (u, v) = (4, 1) the unit hypothesis holds and
sqrt_ratio succeeds with a genuine root; at (1, 0) the v ≡ 0 failure case
applies; at (0, 0) the u ≡ v ≡ 0 success case applies. -/
theorem sqrt_ratio_success_iff_witness :
    ((1 : ℕ) % p ≠ 0 ∧ (sqrt_ratio_flag 4 1 = true ↔ ∃ x, x * x * 1 % p = 4 % p)) ∧
    (sqrt_ratio_flag 4 1 = true ∧
      sqrt_ratio_root 4 1 * sqrt_ratio_root 4 1 * 1 % p = 4 % p) ∧
    ((0 : ℕ) % p = 0 ∧ (1 : ℕ) % p ≠ 0 ∧ sqrt_ratio_flag 1 0 = false) ∧
    ((0 : ℕ) % p = 0 ∧ sqrt_ratio_flag 0 0 = true) :=
  ⟨⟨by decide, (sqrt_ratio_success_iff 4 1).1 (by decide)⟩,
   ⟨by decide, (sqrt_ratio_success_iff 4 1).2.1 (by decide)⟩,
   ⟨by decide, by decide, (sqrt_ratio_success_iff 1 0).2.2.1 (by decide) (by decide)⟩,
   ⟨by decide, (sqrt_ratio_success_iff 0 0).2.2.2 (by decide) (by decide)⟩⟩

/-
Point decompression.  The implementation (`edwards.rs`, `decompress`) is
not in the source tree; the definitions below are modelled from spec
sections 3 and 4.3 and from `lemmas/edwards_lemmas/unused_decompress_lemmas.rs`.
-/

/-- An Edwards point in extended coordinates (X : Y : Z : T), coordinates
being field elements represented as naturals (spec section 3). -/
structure EPoint where
  X : ℕ
  Y : ℕ
  Z : ℕ
  T : ℕ
deriving DecidableEq

/-- The y-value stored in a 32-byte compressed encoding: bits 0..254 of
the little-endian value (spec section 3). -/
def yVal (b : List ℕ) : ℕ := bytesToNatFirst b 32 % 2 ^ 255

/-- The sign bit stored in a 32-byte compressed encoding: bit 255 of the
little-endian value (spec section 3). -/
def signBit (b : List ℕ) : ℕ := bytesToNatFirst b 32 / 2 ^ 255 % 2

/-- The value u = y² - 1 computed by decompression (spec section 4.3). -/
def uOf (b : List ℕ) : ℕ := fsub (fmul (yVal b) (yVal b)) 1

/-- The value v = d·y² + 1 computed by decompression (spec section 4.3). -/
def vOf (b : List ℕ) : ℕ := fadd (fmul EDWARDS_D (fmul (yVal b) (yVal b))) 1

/-- The x-coordinate produced by decompression: the `sqrt_ratio` root,
negated when its sign (low bit) disagrees with the stored sign bit (spec
section 4.3). -/
def decompressX (b : List ℕ) : ℕ :=
  if signBit b ≠ sqrt_ratio_root (uOf b) (vOf b) % 2
  then (p - sqrt_ratio_root (uOf b) (vOf b)) % p
  else sqrt_ratio_root (uOf b) (vOf b)

/-- Modelled from the spec: decompression of a 32-byte encoding (spec
section 4.3); `edwards.rs` is not in the source tree.  Rejects a
non-canonical y (y ≥ p); calls `sqrt_ratio(u, v)` and fails when it
reports failure; otherwise returns (x, y, 1, x·y) in extended
coordinates. -/
def decompress (b : List ℕ) : Option EPoint :=
  if p ≤ yVal b then none
  else if sqrt_ratio_flag (uOf b) (vOf b) then
    some ⟨decompressX b, yVal b, 1, fmul (decompressX b) (yVal b)⟩
  else none

/-- The square of the decompressed x-coordinate agrees with the square of
the sqrt_ratio root. -/
lemma decompressX_sq (b : List ℕ) :
    decompressX b * decompressX b * vOf b % p =
    sqrt_ratio_root (uOf b) (vOf b) * sqrt_ratio_root (uOf b) (vOf b) * vOf b % p := by
  unfold decompressX
  split_ifs with h
  · refine eq_of_cast_eq _ _ (Nat.mod_lt _ (by decide)) (Nat.mod_lt _ (by decide)) ?_
    rw [ZMod.natCast_mod, ZMod.natCast_mod, Nat.cast_mul, Nat.cast_mul, Nat.cast_mul,
      Nat.cast_mul, cast_p_sub_mod _ (sqrt_ratio_root_lt _ _)]
    ring
  · rfl

/-- If y² = 1 mod p then v = d·y²+1 cannot vanish mod p: that would
force d = -1 mod p, contradicting the value of the curve constant. -/
lemma d_y2_contra (y2 : ℕ) (h2 : y2 < p) (hu : fsub y2 1 % p = 0)
    (hv : fadd (fmul EDWARDS_D y2) 1 % p = 0) : False := by
  rw [fsub, mod_p_mod_p, Nat.mod_eq_of_lt h2] at hu
  have h1p : (1 : ℕ) % p = 1 := by decide
  rw [h1p] at hu
  have hy21 : y2 = 1 := by
    rcases Nat.eq_zero_or_pos y2 with h0 | h0
    · rw [h0] at hu
      have he : (0 + p - 1) % p = p - 1 := by decide
      rw [he] at hu
      exact absurd hu (by decide)
    · have heq : y2 + p - 1 = (y2 - 1) + p := by omega
      rw [heq, Nat.add_mod_right, Nat.mod_eq_of_lt (by omega)] at hu
      omega
  rw [hy21] at hv
  exact absurd hv (by decide)

/-- Inside decompression, v cannot vanish together with u. -/
lemma uOf_ne_zero_of_vOf_zero (b : List ℕ) (hv : vOf b % p = 0) : uOf b % p ≠ 0 := by
  intro hu
  exact d_y2_contra (fmul (yVal b) (yVal b)) (fmul_lt _ _) hu hv

/-- C3: decompression fails exactly when the stored y-value is not
canonically reduced (y ≥ p), or v = d·y²+1 vanishes mod p, or no square
root of u/v exists (no x with x²·v = u mod p); on success the returned
point is (x, y, 1, x·y) in extended coordinates with x the sqrt_ratio
candidate negated on sign disagreement, and that x is an actual square
root of u/v. -/
theorem decompress_spec (b : List ℕ) :
    (decompress b = none ↔
      p ≤ yVal b ∨ vOf b % p = 0 ∨ ¬ ∃ x, x * x * vOf b % p = uOf b % p) ∧
    (∀ pt, decompress b = some pt →
      yVal b < p ∧ pt.X * pt.X * vOf b % p = uOf b % p ∧
      pt = ⟨decompressX b, yVal b, 1, fmul (decompressX b) (yVal b)⟩) := by
  unfold decompress
  by_cases hy : p ≤ yVal b
  · rw [if_pos hy]
    exact ⟨⟨fun _ => Or.inl hy, fun _ => rfl⟩, fun pt h => Option.noConfusion h⟩
  · rw [if_neg hy]
    by_cases hflag : sqrt_ratio_flag (uOf b) (vOf b) = true
    · rw [if_pos hflag]
      have hroot := sqrt_ratio_root_correct (uOf b) (vOf b) hflag
      have hX : decompressX b * decompressX b * vOf b % p = uOf b % p := by
        rw [decompressX_sq]
        exact hroot
      refine ⟨⟨fun h => Option.noConfusion h, fun h => ?_⟩, fun pt h => ?_⟩
      · rcases h with h | h | h
        · exact absurd h hy
        · have hune := uOf_ne_zero_of_vOf_zero b h
          have := flag_false_of_v_zero (uOf b) (vOf b) h hune
          rw [hflag] at this
          exact Bool.noConfusion this
        · exact absurd ⟨decompressX b, hX⟩ h
      · injection h with h2
        refine ⟨Nat.lt_of_not_le hy, ?_, h2.symm⟩
        rw [← h2]
        exact hX
    · rw [if_neg hflag]
      have hflag' : sqrt_ratio_flag (uOf b) (vOf b) = false :=
        Bool.eq_false_iff.mpr hflag
      refine ⟨⟨fun _ => ?_, fun _ => rfl⟩, fun pt h => Option.noConfusion h⟩
      by_cases hv : vOf b % p = 0
      · exact Or.inr (Or.inl hv)
      · refine Or.inr (Or.inr ?_)
        rintro ⟨x, hx⟩
        have := flag_true_of_root (uOf b) (vOf b) x hv hx
        rw [this] at hflag'
        exact Bool.noConfusion hflag'

/-- Witness for C3 at the all-zero input. -/
theorem decompress_spec_witness :
    yVal (List.replicate 32 0) < p ∧
    (EPoint.mk SQRT_M1 0 1 0).X * (EPoint.mk SQRT_M1 0 1 0).X * vOf (List.replicate 32 0) % p
      = uOf (List.replicate 32 0) % p ∧
    EPoint.mk SQRT_M1 0 1 0 =
      ⟨decompressX (List.replicate 32 0), yVal (List.replicate 32 0), 1,
        fmul (decompressX (List.replicate 32 0)) (yVal (List.replicate 32 0))⟩ :=
  (decompress_spec (List.replicate 32 0)).2 ⟨SQRT_M1, 0, 1, 0⟩ (by decide)

/-
Radix-16 signed digit expansion.  The implementation (`scalar.rs`,
`as_radix_16`) is not in the source tree; the definitions below are
modelled from spec section 4.2: extract base-16 nibbles, then one
left-to-right recentering pass that subtracts 16 from any nibble
exceeding 8 and carries +1 into the next digit; the final (64th) digit
only absorbs the incoming carry.
-/

/-- The first n base-16 digits (nibbles) of s, least significant first. -/
def nibbleList : ℕ → ℕ → List ℕ
  | 0, _ => []
  | n + 1, s => s % 16 :: nibbleList n (s / 16)

/-- Modelled from the spec: the recentering pass of `as_radix_16` (spec
section 4.2) with incoming carry c; the last digit only absorbs the
carry. -/
def recenter : List ℕ → ℕ → List ℤ
  | [], _ => []
  | [d], c => [((d + c : ℕ) : ℤ)]
  | d :: e :: rest, c =>
    if 8 < d + c then (((d + c : ℕ) : ℤ) - 16) :: recenter (e :: rest) 1
    else ((d + c : ℕ) : ℤ) :: recenter (e :: rest) 0

/-- Modelled from the spec: `as_radix_16` — the 64 signed radix-16 digits
of a scalar (spec section 4.2); `scalar.rs` is not in the source tree. -/
def as_radix_16 (s : ℕ) : List ℤ := recenter (nibbleList 64 s) 0

/-- Horner value of a signed digit list in the given base. -/
def digitsVal (base : ℤ) : List ℤ → ℤ
  | [] => 0
  | a :: l => a + base * digitsVal base l

/-- Horner value of an unsigned digit list in the given base. -/
def nibblesVal (base : ℕ) : List ℕ → ℕ
  | [] => 0
  | a :: l => a + base * nibblesVal base l

lemma nibbleList_length (n : ℕ) : ∀ s, (nibbleList n s).length = n := by
  induction n with
  | zero => intro s; rfl
  | succ n ih => intro s; simp [nibbleList, ih]

lemma nibblesVal_nibbleList (n : ℕ) : ∀ s, nibblesVal 16 (nibbleList n s) = s % 16 ^ n := by
  induction n with
  | zero => intro s; simp [nibbleList, nibblesVal, Nat.mod_one]
  | succ n ih =>
    intro s
    rw [nibbleList, nibblesVal, ih (s / 16), pow_succ', Nat.mod_mul]

lemma recenter_length (l : List ℕ) : ∀ c, (recenter l c).length = l.length := by
  induction l with
  | nil => intro c; rfl
  | cons d rest ih =>
    intro c
    cases rest with
    | nil => rfl
    | cons e rest2 =>
      by_cases h : 8 < d + c
      · simp only [recenter, if_pos h, List.length_cons]
        rw [ih 1]
        simp
      · simp only [recenter, if_neg h, List.length_cons]
        rw [ih 0]
        simp

lemma recenter_val (l : List ℕ) : ∀ c, l ≠ [] →
    digitsVal 16 (recenter l c) = ((nibblesVal 16 l + c : ℕ) : ℤ) := by
  induction l with
  | nil => intro c h; exact absurd rfl h
  | cons d rest ih =>
    intro c _
    cases rest with
    | nil =>
      simp only [recenter, digitsVal, nibblesVal]
      push_cast
      ring
    | cons e rest2 =>
      have hnib : nibblesVal 16 (d :: e :: rest2) = d + 16 * nibblesVal 16 (e :: rest2) := rfl
      by_cases h : 8 < d + c
      · simp only [recenter, if_pos h, digitsVal]
        rw [ih 1 (by simp), hnib]
        push_cast
        ring
      · simp only [recenter, if_neg h, digitsVal]
        rw [ih 0 (by simp), hnib]
        push_cast
        ring

lemma recenter_bounds (l : List ℕ) : ∀ c, c ≤ 1 → (∀ x ∈ l, x ≤ 15) →
    (∀ e, l.getLast? = some e → e ≤ 7) →
    ∀ y ∈ recenter l c, -8 ≤ y ∧ y ≤ 8 := by
  induction l with
  | nil => intro c _ _ _ y hy; simp [recenter] at hy
  | cons d rest ih =>
    intro c hc hmem hlast y hy
    cases rest with
    | nil =>
      simp only [recenter, List.mem_singleton] at hy
      have hd : d ≤ 7 := hlast d rfl
      subst hy
      constructor <;> omega
    | cons e rest2 =>
      have hd : d ≤ 15 := hmem d (by simp)
      have hrest : ∀ x ∈ e :: rest2, x ≤ 15 := fun x hx => hmem x (List.mem_cons_of_mem d hx)
      have hlast2 : ∀ a, (e :: rest2).getLast? = some a → a ≤ 7 := by
        intro a ha
        exact hlast a (by rw [List.getLast?_cons_cons]; exact ha)
      by_cases h : 8 < d + c
      · simp only [recenter, if_pos h, List.mem_cons] at hy
        rcases hy with hy | hy
        · subst hy; constructor <;> omega
        · exact ih 1 le_rfl hrest hlast2 y hy
      · simp only [recenter, if_neg h, List.mem_cons] at hy
        rcases hy with hy | hy
        · subst hy; constructor <;> omega
        · exact ih 0 (by omega) hrest hlast2 y hy

lemma nibbleList_last (n : ℕ) : ∀ s, s < 8 * 16 ^ n →
    ∀ e, (nibbleList (n + 1) s).getLast? = some e → e ≤ 7 := by
  induction n with
  | zero =>
    intro s hs e he
    simp only [nibbleList, List.getLast?_singleton, Option.some.injEq] at he
    subst he
    simp only [pow_zero, mul_one] at hs
    omega
  | succ n ih =>
    intro s hs e he
    rw [show nibbleList (n + 2) s = s % 16 :: nibbleList (n + 1) (s / 16) from rfl] at he
    rw [show nibbleList (n + 1) (s / 16) = (s / 16) % 16 :: nibbleList n (s / 16 / 16) from rfl,
        List.getLast?_cons_cons,
        show (s / 16) % 16 :: nibbleList n (s / 16 / 16) = nibbleList (n + 1) (s / 16) from rfl] at he
    refine ih (s / 16) ?_ e he
    have h16 : (16 : ℕ) ^ (n + 1) = 16 * 16 ^ n := pow_succ' 16 n
    rw [Nat.div_lt_iff_lt_mul (by omega)]
    omega

/-- Horner value equals the positional sum over the list's length. -/
lemma digitsVal_eq_sum (base : ℤ) (l : List ℤ) :
    digitsVal base l = ∑ i ∈ Finset.range l.length, l.getD i 0 * base ^ i := by
  induction l with
  | nil => simp [digitsVal]
  | cons a l ih =>
    rw [List.length_cons, Finset.sum_range_succ', digitsVal, ih]
    simp only [List.getD_cons_succ, List.getD_cons_zero, pow_zero, mul_one, pow_succ']
    rw [Finset.mul_sum]
    rw [add_comm]
    congr 1
    refine Finset.sum_congr rfl fun i _ => by ring

/-- C6: for every scalar below 2^255 (covering every canonical scalar),
`as_radix_16` produces exactly 64 signed digits, each in [-8, 8], whose
positional value sum over i of d_i * 16^i recovers the scalar.  This
settles spec section 4.2 and the contract behind
`prove_as_radix_16_deterministic`. -/
theorem as_radix_16_spec (s : ℕ) (h : s < 2 ^ 255) :
    (as_radix_16 s).length = 64 ∧
    (∀ dd ∈ as_radix_16 s, -8 ≤ dd ∧ dd ≤ 8) ∧
    ∑ i ∈ Finset.range 64, (as_radix_16 s).getD i 0 * (16 : ℤ) ^ i = s := by
  have hlen : (as_radix_16 s).length = 64 := by
    rw [as_radix_16, recenter_length, nibbleList_length]
  refine ⟨hlen, ?_, ?_⟩
  · refine recenter_bounds (nibbleList 64 s) 0 (by omega) ?_ ?_
    · intro x hx
      have : ∀ n t, ∀ x ∈ nibbleList n t, x ≤ 15 := by
        intro n
        induction n with
        | zero => intro t x hx; simp [nibbleList] at hx
        | succ n ih =>
          intro t x hx
          rcases List.mem_cons.mp hx with hx | hx
          · subst hx; omega
          · exact ih (t / 16) x hx
      exact this 64 s x hx
    · exact nibbleList_last 63 s (by omega)
  · rw [← hlen, ← digitsVal_eq_sum, as_radix_16,
        recenter_val _ 0 (List.length_pos.mp (by rw [nibbleList_length]; omega)),
        nibblesVal_nibbleList]
    norm_cast
    rw [Nat.add_zero]
    exact Nat.mod_eq_of_lt (Nat.lt_trans h (by decide))

/-- Witness for C6: the radix-16 contract instantiated at the scalar 3. -/
theorem as_radix_16_spec_witness :
    (3 : ℕ) < 2 ^ 255 ∧
    ((as_radix_16 3).length = 64 ∧
     (∀ dd ∈ as_radix_16 3, -8 ≤ dd ∧ dd ≤ 8) ∧
     ∑ i ∈ Finset.range 64, (as_radix_16 3).getD i 0 * (16 : ℤ) ^ i = 3) :=
  ⟨by decide, as_radix_16_spec 3 (by decide)⟩

/-
Edwards point operations.  The implementation (`edwards.rs`) is not in
the source tree; the operations below are modelled from spec section 4.3
(unified extended-coordinate addition and doubling, negation flipping X
and T, identity (0, 1, 1, 0)), using the standard unified extended
formulas for a = -1 twisted Edwards curves that the dalek backend
implements.  The point invariants are stated as in spec section 3; the
curve equation is stated in the Z-cleared extended form
Y² = X² + Z² + d·T², which for Z invertible mod p is the affine equation
-x² + y² = 1 + d x² y² at (x, y) = (X/Z, Y/Z) combined with T/Z = x·y.
-/

/-- The identity point (0, 1, 1, 0) (spec section 4.3). -/
def identityPoint : EPoint := ⟨0, 1, 1, 0⟩

/-- The fixed basepoint in extended coordinates with Z = 1. -/
def basePoint : EPoint := ⟨BASE_X, BASE_Y, 1, fmul BASE_X BASE_Y⟩

/-- Intermediate A = (Y1 - X1)(Y2 - X2) of unified addition. -/
def addA (P Q : EPoint) : ℕ := fmul (fsub P.Y P.X) (fsub Q.Y Q.X)

/-- Intermediate B = (Y1 + X1)(Y2 + X2) of unified addition. -/
def addB (P Q : EPoint) : ℕ := fmul (fadd P.Y P.X) (fadd Q.Y Q.X)

/-- Intermediate C = T1·(2d)·T2 of unified addition. -/
def addC (P Q : EPoint) : ℕ := fmul (fmul P.T (fmul 2 EDWARDS_D)) Q.T

/-- Intermediate D = (2·Z1)·Z2 of unified addition. -/
def addD (P Q : EPoint) : ℕ := fmul (fmul 2 P.Z) Q.Z

/-- Modelled from the spec: unified extended-coordinate point addition
(spec section 4.3), the a = -1 Hisil–Wong–Carter–Dawson formulas:
X3 = E·F, Y3 = G·H, Z3 = F·G, T3 = E·H with E = B - A, F = D - C,
G = D + C, H = B + A. -/
def addPoint (P Q : EPoint) : EPoint :=
  ⟨fmul (fsub (addB P Q) (addA P Q)) (fsub (addD P Q) (addC P Q)),
   fmul (fadd (addD P Q) (addC P Q)) (fadd (addB P Q) (addA P Q)),
   fmul (fsub (addD P Q) (addC P Q)) (fadd (addD P Q) (addC P Q)),
   fmul (fsub (addB P Q) (addA P Q)) (fadd (addB P Q) (addA P Q))⟩

/-- Modelled from the spec: doubling by the unified addition formula
(spec section 4.3: no case split between addition and doubling). -/
def doublePoint (P : EPoint) : EPoint := addPoint P P

/-- Modelled from the spec: negation flips the sign of X and T only
(spec section 4.3). -/
def negPoint (P : EPoint) : EPoint := ⟨fneg P.X, P.Y, P.Z, fneg P.T⟩

/-- Modelled from the spec: scalar multiplication as iterated point
addition built from the group operations (spec section 4.6, the n = 1
specialization); any double-and-add schedule uses only `addPoint` and
`doublePoint` and therefore preserves the invariants in the same way. -/
def scalarMulPoint : ℕ → EPoint → EPoint
  | 0, _ => identityPoint
  | n + 1, P => addPoint P (scalarMulPoint n P)

/-- The two EdwardsPoint invariants of spec section 3: X·Y ≡ Z·T (mod p),
and the Z-cleared curve equation Y² ≡ X² + Z² + d·T² (mod p). -/
def validPoint (P : EPoint) : Prop :=
  fmul P.X P.Y = fmul P.Z P.T ∧
  fmul P.Y P.Y = fadd (fmul P.X P.X) (fadd (fmul P.Z P.Z) (fmul EDWARDS_D (fmul P.T P.T)))

instance (P : EPoint) : Decidable (validPoint P) := by
  unfold validPoint
  exact inferInstance

lemma valid_cast (P : EPoint) (h : validPoint P) :
    ((P.X : ZMod p) * P.Y = (P.Z : ZMod p) * P.T) ∧
    ((P.Y : ZMod p) * P.Y =
      (P.X : ZMod p) * P.X + (P.Z : ZMod p) * P.Z +
        (EDWARDS_D : ZMod p) * ((P.T : ZMod p) * P.T)) := by
  obtain ⟨h1, h2⟩ := h
  constructor
  · have := congrArg (Nat.cast (R := ZMod p)) h1
    simpa only [cast_fmul] using this
  · have := congrArg (Nat.cast (R := ZMod p)) h2
    simpa only [cast_fmul, cast_fadd, add_assoc] using this

/-- Closure of the two invariants under unified extended addition, over
any inputs satisfying them; the curve-equation part is the polynomial
ideal-membership certificate for the HWCD formulas. -/
lemma valid_addPoint (P Q : EPoint) (hP : validPoint P) (hQ : validPoint Q) :
    validPoint (addPoint P Q) := by
  obtain ⟨hp1, hp2⟩ := valid_cast P hP
  obtain ⟨hq1, hq2⟩ := valid_cast Q hQ
  set x1 := (P.X : ZMod p)
  set y1 := (P.Y : ZMod p)
  set z1 := (P.Z : ZMod p)
  set t1 := (P.T : ZMod p)
  set x2 := (Q.X : ZMod p)
  set y2 := (Q.Y : ZMod p)
  set z2 := (Q.Z : ZMod p)
  set t2 := (Q.T : ZMod p)
  set dd := (EDWARDS_D : ZMod p)
  constructor
  · refine eq_of_cast_eq _ _ (fmul_lt _ _) (fmul_lt _ _) ?_
    simp only [addPoint, addA, addB, addC, addD, cast_fmul, cast_fadd, cast_fsub]
    ring
  · refine eq_of_cast_eq _ _ (fmul_lt _ _) (fadd_lt _ _) ?_
    simp only [addPoint, addA, addB, addC, addD, cast_fmul, cast_fadd, cast_fsub]
    push_cast
    linear_combination
      (32 * z1 * t1 * t2 ^ 4 * dd ^ 2 + 32 * x1 * y1 * t2 ^ 4 * dd ^ 2 - 32 * z1 * t1 * y2 ^ 2 * t2 ^ 2 * dd - 16 * z1 * t1 * y2 ^ 4 * dd + 128 * z1 * t1 * x2 * y2 * z2 * t2 * dd + 32 * z1 * t1 * x2 ^ 2 * t2 ^ 2 * dd - 64 * z1 * t1 * x2 ^ 2 * y2 ^ 2 * dd - 16 * z1 * t1 * x2 ^ 4 * dd - 32 * y1 ^ 2 * x2 * y2 ^ 3 * dd - 32 * y1 ^ 2 * x2 ^ 3 * y2 * dd - 32 * x1 * y1 * y2 ^ 2 * t2 ^ 2 * dd - 16 * x1 * y1 * y2 ^ 4 * dd + 32 * x1 * y1 * x2 ^ 2 * t2 ^ 2 * dd - 64 * x1 * y1 * x2 ^ 2 * y2 ^ 2 * dd - 16 * x1 * y1 * x2 ^ 4 * dd - 32 * x1 ^ 2 * x2 * y2 ^ 3 * dd - 32 * x1 ^ 2 * x2 ^ 3 * y2 * dd) * hp1 +
        (16 * t1 ^ 2 * t2 ^ 4 * dd ^ 3 - 16 * z1 ^ 2 * t2 ^ 4 * dd ^ 2 + 16 * y1 ^ 2 * t2 ^ 4 * dd ^ 2 - 16 * x1 ^ 2 * t2 ^ 4 * dd ^ 2 - 32 * z1 ^ 2 * t2 ^ 4 * dd - 32 * z1 ^ 2 * z2 ^ 2 * t2 ^ 2 * dd - 16 * y1 ^ 2 * y2 ^ 2 * t2 ^ 2 * dd + 16 * y1 ^ 2 * x2 ^ 2 * t2 ^ 2 * dd + 16 * x1 ^ 2 * y2 ^ 2 * t2 ^ 2 * dd - 16 * x1 ^ 2 * x2 ^ 2 * t2 ^ 2 * dd + 32 * z1 ^ 2 * y2 ^ 2 * t2 ^ 2 + 16 * z1 ^ 2 * y2 ^ 4 - 128 * z1 ^ 2 * x2 * y2 * z2 * t2 - 32 * z1 ^ 2 * x2 ^ 2 * t2 ^ 2 + 64 * z1 ^ 2 * x2 ^ 2 * y2 ^ 2 + 16 * z1 ^ 2 * x2 ^ 4) * hp2 +
        ( - 32 * y1 ^ 2 * z1 * t1 * y2 ^ 2 * dd - 32 * y1 ^ 2 * z1 * t1 * x2 ^ 2 * dd - 16 * y1 ^ 4 * z2 * t2 * dd - 16 * y1 ^ 4 * x2 * y2 * dd - 32 * x1 ^ 2 * z1 * t1 * y2 ^ 2 * dd - 32 * x1 ^ 2 * z1 * t1 * x2 ^ 2 * dd - 16 * x1 ^ 4 * z2 * t2 * dd - 16 * x1 ^ 4 * x2 * y2 * dd - 32 * z1 ^ 4 * z2 * t2 + 96 * z1 ^ 4 * x2 * y2 + 32 * y1 ^ 2 * z1 ^ 2 * z2 * t2 - 96 * y1 ^ 2 * z1 ^ 2 * x2 * y2 - 32 * x1 ^ 2 * z1 ^ 2 * z2 * t2 + 96 * x1 ^ 2 * z1 ^ 2 * x2 * y2) * hq1 +
        (16 * z1 ^ 4 * t2 ^ 2 * dd - 32 * y1 ^ 2 * z1 ^ 2 * t2 ^ 2 * dd + 16 * y1 ^ 4 * t2 ^ 2 * dd + 32 * x1 ^ 2 * z1 ^ 2 * t2 ^ 2 * dd + 16 * x1 ^ 4 * t2 ^ 2 * dd + 32 * z1 ^ 4 * t2 ^ 2 + 16 * z1 ^ 4 * z2 ^ 2 + 16 * z1 ^ 4 * y2 ^ 2 - 16 * z1 ^ 4 * x2 ^ 2 - 32 * y1 ^ 2 * z1 ^ 2 * t2 ^ 2 - 16 * y1 ^ 2 * z1 ^ 2 * y2 ^ 2 + 16 * y1 ^ 2 * z1 ^ 2 * x2 ^ 2 + 32 * x1 ^ 2 * z1 ^ 2 * t2 ^ 2 + 16 * x1 ^ 2 * z1 ^ 2 * y2 ^ 2 - 16 * x1 ^ 2 * z1 ^ 2 * x2 ^ 2) * hq2

lemma valid_negPoint (P : EPoint) (hP : validPoint P) : validPoint (negPoint P) := by
  obtain ⟨hp1, hp2⟩ := valid_cast P hP
  constructor
  · refine eq_of_cast_eq _ _ (fmul_lt _ _) (fmul_lt _ _) ?_
    simp only [negPoint, cast_fmul, cast_fneg]
    linear_combination -hp1
  · refine eq_of_cast_eq _ _ (fmul_lt _ _) (fadd_lt _ _) ?_
    simp only [negPoint, cast_fmul, cast_fadd, cast_fneg]
    linear_combination hp2

lemma valid_identityPoint : validPoint identityPoint := by decide

lemma valid_basePoint : validPoint basePoint := by decide

lemma valid_scalarMulPoint (n : ℕ) (P : EPoint) (hP : validPoint P) :
    validPoint (scalarMulPoint n P) := by
  induction n with
  | zero => exact valid_identityPoint
  | succ n ih => exact valid_addPoint P _ hP ih

lemma decompress_some_shape (b : List ℕ) (pt : EPoint) (h : decompress b = some pt) :
    yVal b < p ∧ sqrt_ratio_flag (uOf b) (vOf b) = true ∧
    pt = ⟨decompressX b, yVal b, 1, fmul (decompressX b) (yVal b)⟩ := by
  unfold decompress at h
  by_cases hy : p ≤ yVal b
  · rw [if_pos hy] at h
    exact Option.noConfusion h
  · rw [if_neg hy] at h
    by_cases hf : sqrt_ratio_flag (uOf b) (vOf b) = true
    · rw [if_pos hf] at h
      injection h with h2
      exact ⟨Nat.lt_of_not_le hy, hf, h2.symm⟩
    · rw [if_neg hf] at h
      exact Option.noConfusion h

lemma valid_decompress (b : List ℕ) (pt : EPoint) (h : decompress b = some pt) :
    validPoint pt := by
  obtain ⟨hy, hflag, hpt⟩ := decompress_some_shape b pt h
  have hs : decompressX b * decompressX b * vOf b % p = uOf b % p := by
    rw [decompressX_sq]
    exact sqrt_ratio_root_correct _ _ hflag
  subst hpt
  have hcast : ((decompressX b : ZMod p) * decompressX b) *
      ((EDWARDS_D : ZMod p) * ((yVal b : ZMod p) * yVal b) + 1) =
      (yVal b : ZMod p) * yVal b - 1 := by
    have hc := congrArg (Nat.cast (R := ZMod p)) hs
    rw [ZMod.natCast_mod, ZMod.natCast_mod, Nat.cast_mul, Nat.cast_mul] at hc
    rw [uOf, vOf, cast_fsub, cast_fadd, cast_fmul, cast_fmul, Nat.cast_one] at hc
    linear_combination hc
  constructor
  · show fmul (decompressX b) (yVal b) = fmul 1 (fmul (decompressX b) (yVal b))
    simp only [fmul]
    rw [one_mul, mod_p_mod_p]
  · refine eq_of_cast_eq _ _ (fmul_lt _ _) (fadd_lt _ _) ?_
    simp only [cast_fmul, cast_fadd, Nat.cast_one]
    linear_combination -hcast

/-- C5: every EdwardsPoint produced by the public constructors (identity,
basepoint, successful decompression) or by the point operations (add,
double, negate, scalar multiplication) satisfies both invariants:
X·Y ≡ Z·T (mod p) and the curve equation in the Z-cleared extended form
Y² ≡ X² + Z² + d·T² (mod p). -/
theorem edwards_invariants :
    validPoint identityPoint ∧ validPoint basePoint ∧
    (∀ P Q, validPoint P → validPoint Q → validPoint (addPoint P Q)) ∧
    (∀ P, validPoint P → validPoint (doublePoint P)) ∧
    (∀ P, validPoint P → validPoint (negPoint P)) ∧
    (∀ n P, validPoint P → validPoint (scalarMulPoint n P)) ∧
    (∀ b pt, decompress b = some pt → validPoint pt) :=
  ⟨valid_identityPoint, valid_basePoint, valid_addPoint,
   fun P hP => valid_addPoint P P hP hP, valid_negPoint, valid_scalarMulPoint,
   valid_decompress⟩

/-- Witness for C5: the invariants instantiated at concrete points — the
sum of identity and basepoint, a small scalar multiple, a negation, and
the point decompressed from the all-zero encoding — with every hypothesis
discharged by kernel evaluation. -/
theorem edwards_invariants_witness :
    validPoint (addPoint identityPoint basePoint) ∧
    validPoint (scalarMulPoint 3 basePoint) ∧
    validPoint (negPoint basePoint) ∧
    validPoint (EPoint.mk SQRT_M1 0 1 0) :=
  ⟨edwards_invariants.2.2.1 identityPoint basePoint (by decide) (by decide),
   edwards_invariants.2.2.2.2.2.1 3 basePoint (by decide),
   edwards_invariants.2.2.2.2.1 basePoint (by decide),
   edwards_invariants.2.2.2.2.2.2 (List.replicate 32 0) ⟨SQRT_M1, 0, 1, 0⟩ (by decide)⟩

/-
Multi-scalar multiplication.  The implementations (`straus.rs`,
`pippenger.rs` and their `_verus` refactorings) are not in the source
tree; the algorithms below are modelled from spec sections 4.4–4.6 over
an abstract additive commutative group, as the spec itself prescribes
("it treats the group as abstract algebra", section 1).  The
constant-time Straus path uses the radix-16 digits, the variable-time
path the width-w NAF digits, and Pippenger the signed 2^c windows with
bucket accumulation; all are proved equal to the specification value
Σ sᵢ • Pᵢ, hence equal to each other.
-/

/-- The specification value of a multi-scalar multiplication:
Σ sᵢ • Pᵢ over the zipped batch (spec section 6). -/
def msmSpec {G : Type} [AddCommGroup G] (scalars : List ℕ) (points : List G) : G :=
  ((scalars.zip points).map fun sp => (sp.1 : ℤ) • sp.2).sum

/-- Synchronized digit accumulation over L positions, most significant
first (spec sections 4.4/4.5): the accumulator is multiplied by the digit
base at each position and the per-term digit multiples are added. -/
def msmRec {G : Type} [AddCommGroup G] (β : ℕ) : ℕ → List (List ℤ × G) → G
  | 0, _ => 0
  | L + 1, terms =>
      β • msmRec β L (terms.map fun t => (t.1.tail, t.2)) +
        (terms.map fun t => t.1.headI • t.2).sum

lemma digitsVal_headI_tail (β : ℤ) (l : List ℤ) :
    digitsVal β l = l.headI + β * digitsVal β l.tail := by
  cases l with
  | nil => simp [digitsVal]
  | cons a l => simp [digitsVal]

lemma list_sum_map_add {α G : Type} [AddCommGroup G] (l : List α) (f g : α → G) :
    (l.map fun x => f x + g x).sum = (l.map f).sum + (l.map g).sum := by
  induction l with
  | nil => simp
  | cons a l ih => simp [ih]; abel

lemma list_sum_map_smul {α G : Type} [AddCommGroup G] (l : List α) (f : α → G) (n : ℕ) :
    (l.map fun x => n • f x).sum = n • (l.map f).sum := by
  induction l with
  | nil => simp
  | cons a l ih => simp [ih, smul_add]

/-- Correctness of synchronized accumulation: when every digit list has
length at most L, the result is the Σ (value of digits) • P. -/
lemma msmRec_eq {G : Type} [AddCommGroup G] (β : ℕ) (L : ℕ) :
    ∀ terms : List (List ℤ × G), (∀ t ∈ terms, t.1.length ≤ L) →
      msmRec β L terms = (terms.map fun t => digitsVal β t.1 • t.2).sum := by
  induction L with
  | zero =>
    intro terms h
    rw [msmRec]
    refine (List.sum_eq_zero ?_).symm
    intro x hx
    obtain ⟨t, ht, rfl⟩ := List.mem_map.mp hx
    have : t.1 = [] := List.length_eq_zero.mp (Nat.le_zero.mp (h t ht))
    rw [this]
    simp [digitsVal]
  | succ L ih =>
    intro terms h
    rw [msmRec, ih _ (fun t ht => ?_), List.map_map]
    swap
    · obtain ⟨t0, ht0, rfl⟩ := List.mem_map.mp ht
      have := h t0 ht0
      rw [List.length_tail]
      omega
    have h1 : ∀ t ∈ terms, digitsVal (β : ℤ) t.1 • t.2 =
        t.1.headI • t.2 + β • (digitsVal (β : ℤ) t.1.tail • t.2) := by
      intro t _
      rw [digitsVal_headI_tail (β : ℤ) t.1, add_smul, mul_smul, natCast_zsmul]
    rw [List.map_congr_left h1, list_sum_map_add, list_sum_map_smul]
    exact add_comm _ _

/-- Largest digit-list length in a batch of terms. -/
def maxListLen {G : Type} (terms : List (List ℤ × G)) : ℕ :=
  terms.foldr (fun t acc => max t.1.length acc) 0

lemma le_maxListLen {G : Type} (terms : List (List ℤ × G)) :
    ∀ t ∈ terms, t.1.length ≤ maxListLen terms := by
  induction terms with
  | nil => intro t ht; exact absurd ht (List.not_mem_nil t)
  | cons q rest ih =>
    intro t ht
    rcases List.mem_cons.mp ht with h | h
    · subst h; exact le_max_left _ _
    · exact le_trans (ih t h) (le_max_right _ _)

/-- Modelled from the spec: constant-time Straus — every scalar expanded
with radix-16 (64 digits for every scalar, data-independent), processed
most significant position first with 4 doublings (a factor 16) per
position (spec section 4.4). -/
def strausCT {G : Type} [AddCommGroup G] (scalars : List ℕ) (points : List G) : G :=
  msmRec 16 64 ((scalars.zip points).map fun sp => (as_radix_16 sp.1, sp.2))

lemma as_radix_16_length (s : ℕ) : (as_radix_16 s).length = 64 := by
  rw [as_radix_16, recenter_length, nibbleList_length]

lemma as_radix_16_val (s : ℕ) (h : s < 2 ^ 256) : digitsVal 16 (as_radix_16 s) = s := by
  rw [as_radix_16,
      recenter_val _ 0 (List.length_pos.mp (by rw [nibbleList_length]; omega)),
      nibblesVal_nibbleList]
  norm_cast
  rw [Nat.add_zero]
  exact Nat.mod_eq_of_lt (lt_of_lt_of_le h (by decide))

lemma strausCT_eq {G : Type} [AddCommGroup G] (scalars : List ℕ) (points : List G)
    (h : ∀ s ∈ scalars, s < 2 ^ 256) :
    strausCT scalars points = msmSpec scalars points := by
  rw [strausCT, msmRec_eq 16 64 _ ?_, List.map_map, msmSpec]
  · refine congrArg List.sum (List.map_congr_left ?_)
    intro sp hsp
    have hs : sp.1 < 2 ^ 256 := h sp.1 (List.of_mem_zip hsp).1
    simp only [Function.comp, Nat.cast_ofNat]
    rw [as_radix_16_val sp.1 hs]
  · intro t ht
    obtain ⟨sp, _, rfl⟩ := List.mem_map.mp ht
    rw [as_radix_16_length]

/-- Modelled from the spec: width-w non-adjacent form (spec section 4.2),
with window width w = k + 2 (every width used by the engine is at least
2).  At an even position a 0 is emitted and the scan advances one bit; at
an odd position a centered odd digit is computed from the next w bits and
the scan advances w positions (w - 1 explicit zeros). -/
def nafAux (k v : ℕ) : List ℤ :=
  if h0 : v = 0 then []
  else if h2 : v % 2 = 0 then 0 :: nafAux k (v / 2)
  else
    if hsm : v % 2 ^ (k + 2) < 2 ^ (k + 1) then
      if hvn : (v - v % 2 ^ (k + 2)) / 2 ^ (k + 2) = 0 then
        [((v % 2 ^ (k + 2) : ℕ) : ℤ)]
      else
        ((v % 2 ^ (k + 2) : ℕ) : ℤ) ::
          (List.replicate (k + 1) 0 ++ nafAux k ((v - v % 2 ^ (k + 2)) / 2 ^ (k + 2)))
    else
      (((v % 2 ^ (k + 2) : ℕ) : ℤ) - 2 ^ (k + 2)) ::
        (List.replicate (k + 1) 0 ++
          nafAux k ((v + (2 ^ (k + 2) - v % 2 ^ (k + 2))) / 2 ^ (k + 2)))
termination_by v
decreasing_by
  · exact Nat.div_lt_self (Nat.pos_of_ne_zero h0) (by omega)
  · have hle := Nat.div_le_self (v - v % 2 ^ (k + 2)) (2 ^ (k + 2))
    have hmm2 : v % 2 ^ (k + 2) % 2 = v % 2 := Nat.mod_mod_of_dvd v ⟨2 ^ (k + 1), pow_succ' 2 (k + 1)⟩
    have hml : v % 2 ^ (k + 2) ≤ v := Nat.mod_le v _
    omega
  · have hP : 0 < 2 ^ (k + 1) := pow_pos (by omega) _
    have hB : 2 ^ (k + 2) = 2 * 2 ^ (k + 1) := pow_succ' 2 (k + 1)
    have hm2 : 2 ^ (k + 1) ≤ v % 2 ^ (k + 2) := Nat.le_of_not_lt hsm
    have hml : v % 2 ^ (k + 2) ≤ v := Nat.mod_le v _
    have h1 : v + (2 ^ (k + 2) - v % 2 ^ (k + 2)) ≤ 2 * v := by omega
    calc (v + (2 ^ (k + 2) - v % 2 ^ (k + 2))) / 2 ^ (k + 2)
        ≤ 2 * v / 2 ^ (k + 2) := Nat.div_le_div_right h1
      _ = 2 * v / (2 * 2 ^ (k + 1)) := by rw [hB]
      _ = v / 2 ^ (k + 1) := Nat.mul_div_mul_left v (2 ^ (k + 1)) (by omega)
      _ ≤ v / 2 := Nat.div_le_div_left (by
            calc (2 : ℕ) = 2 ^ 1 := (pow_one 2).symm
              _ ≤ 2 ^ (k + 1) := Nat.pow_le_pow_right (by omega) (by omega)) (by omega)
      _ < v := Nat.div_lt_self (by omega) (by omega)

lemma digitsVal_replicate_zero (β : ℤ) (j : ℕ) (l : List ℤ) :
    digitsVal β (List.replicate j 0 ++ l) = β ^ j * digitsVal β l := by
  induction j with
  | zero => simp
  | succ j ih =>
    rw [List.replicate_succ, List.cons_append, digitsVal, ih]
    ring

/-- The NAF digits of v evaluate back to v in base 2, for every window
parameter. -/
lemma nafAux_val (k : ℕ) : ∀ v, digitsVal 2 (nafAux k v) = v := by
  intro v
  induction v using Nat.strong_induction_on with
  | _ v ih =>
    rw [nafAux]
    split_ifs with h0 h2 hsm hvn
    · simp [digitsVal, h0]
    · rw [digitsVal, ih (v / 2) (Nat.div_lt_self (Nat.pos_of_ne_zero h0) (by omega))]
      have h3 := Nat.div_add_mod v 2
      push_cast
      omega
    · have hdm := Nat.div_add_mod v (2 ^ (k + 2))
      have h3 : v - v % 2 ^ (k + 2) = 2 ^ (k + 2) * (v / 2 ^ (k + 2)) := by omega
      rw [h3, Nat.mul_div_cancel_left _ (pow_pos (by omega) _)] at hvn
      have hmv : v % 2 ^ (k + 2) = v := by
        rw [hvn, Nat.mul_zero] at hdm
        omega
      simp [digitsVal, hmv]
    · have hdm := Nat.div_add_mod v (2 ^ (k + 2))
      have h3 : v - v % 2 ^ (k + 2) = 2 ^ (k + 2) * (v / 2 ^ (k + 2)) := by omega
      have hq : (v - v % 2 ^ (k + 2)) / 2 ^ (k + 2) = v / 2 ^ (k + 2) := by
        rw [h3, Nat.mul_div_cancel_left _ (pow_pos (by omega) _)]
      have hlt : (v - v % 2 ^ (k + 2)) / 2 ^ (k + 2) < v := by
        have hle := Nat.div_le_self (v - v % 2 ^ (k + 2)) (2 ^ (k + 2))
        have hmm2 : v % 2 ^ (k + 2) % 2 = v % 2 :=
          Nat.mod_mod_of_dvd v ⟨2 ^ (k + 1), pow_succ' 2 (k + 1)⟩
        have hml : v % 2 ^ (k + 2) ≤ v := Nat.mod_le v _
        omega
      rw [digitsVal, digitsVal_replicate_zero, ih _ hlt, hq]
      have hcast : ((2 : ℤ)) ^ (k + 1) = ((2 ^ (k + 1) : ℕ) : ℤ) := by push_cast; ring
      rw [hcast]
      have hgoal := congrArg (Nat.cast (R := ℤ)) hdm
      push_cast at hgoal ⊢
      have hBz : ((2 : ℤ)) ^ (k + 2) = 2 * 2 ^ (k + 1) := by ring
      nlinarith [hgoal]
    · have hdm := Nat.div_add_mod v (2 ^ (k + 2))
      have hml : v % 2 ^ (k + 2) ≤ v := Nat.mod_le v _
      have hmB : v % 2 ^ (k + 2) < 2 ^ (k + 2) := Nat.mod_lt _ (pow_pos (by omega) _)
      have h6 : v + (2 ^ (k + 2) - v % 2 ^ (k + 2)) =
          2 ^ (k + 2) * (v / 2 ^ (k + 2)) + 2 ^ (k + 2) := by omega
      have h7 : 2 ^ (k + 2) * (v / 2 ^ (k + 2)) + 2 ^ (k + 2) =
          2 ^ (k + 2) * (v / 2 ^ (k + 2) + 1) := by ring
      have hq : (v + (2 ^ (k + 2) - v % 2 ^ (k + 2))) / 2 ^ (k + 2) = v / 2 ^ (k + 2) + 1 := by
        rw [h6, h7, Nat.mul_div_cancel_left _ (pow_pos (by omega) _)]
      have hP : 0 < 2 ^ (k + 1) := pow_pos (by omega) _
      have hB : 2 ^ (k + 2) = 2 * 2 ^ (k + 1) := pow_succ' 2 (k + 1)
      have hm2 : 2 ^ (k + 1) ≤ v % 2 ^ (k + 2) := Nat.le_of_not_lt hsm
      have h1 : v + (2 ^ (k + 2) - v % 2 ^ (k + 2)) ≤ 2 * v := by omega
      have hlt : (v + (2 ^ (k + 2) - v % 2 ^ (k + 2))) / 2 ^ (k + 2) < v := by
        calc (v + (2 ^ (k + 2) - v % 2 ^ (k + 2))) / 2 ^ (k + 2)
            ≤ 2 * v / 2 ^ (k + 2) := Nat.div_le_div_right h1
          _ = 2 * v / (2 * 2 ^ (k + 1)) := by rw [hB]
          _ = v / 2 ^ (k + 1) := Nat.mul_div_mul_left v (2 ^ (k + 1)) (by omega)
          _ ≤ v / 2 := Nat.div_le_div_left (by
                calc (2 : ℕ) = 2 ^ 1 := (pow_one 2).symm
                  _ ≤ 2 ^ (k + 1) := Nat.pow_le_pow_right (by omega) (by omega)) (by omega)
          _ < v := Nat.div_lt_self (by omega) (by omega)
      rw [digitsVal, digitsVal_replicate_zero, ih _ hlt, hq]
      have hcast : ((2 : ℤ)) ^ (k + 1) = ((2 ^ (k + 1) : ℕ) : ℤ) := by push_cast; ring
      rw [hcast]
      have hgoal := congrArg (Nat.cast (R := ℤ)) hdm
      push_cast at hgoal ⊢
      nlinarith [hgoal]

/-- Modelled from the spec: variable-time Straus — every scalar expanded
in width-(k+2) NAF, processed most significant position first with one
doubling per bit position (spec section 4.4). -/
def strausVT {G : Type} [AddCommGroup G] (k : ℕ) (scalars : List ℕ) (points : List G) : G :=
  msmRec 2 (maxListLen ((scalars.zip points).map fun sp => (nafAux k sp.1, sp.2)))
    ((scalars.zip points).map fun sp => (nafAux k sp.1, sp.2))

lemma strausVT_eq {G : Type} [AddCommGroup G] (k : ℕ) (scalars : List ℕ) (points : List G) :
    strausVT k scalars points = msmSpec scalars points := by
  rw [strausVT, msmRec_eq _ _ _ (le_maxListLen _), List.map_map, msmSpec]
  refine congrArg List.sum (List.map_congr_left ?_)
  intro sp _
  simp only [Function.comp, Nat.cast_ofNat]
  rw [nafAux_val k sp.1]

/-- Base-(b2+2) unsigned digits of v, least significant first (every base
used by the engine is at least 2). -/
def baseDigitsAux (b2 v : ℕ) : List ℕ :=
  if h : v = 0 then [] else v % (b2 + 2) :: baseDigitsAux b2 (v / (b2 + 2))
termination_by v
decreasing_by
  exact Nat.div_lt_self (Nat.pos_of_ne_zero h) (by omega)

lemma baseDigitsAux_val (b2 : ℕ) : ∀ v, nibblesVal (b2 + 2) (baseDigitsAux b2 v) = v := by
  intro v
  induction v using Nat.strong_induction_on with
  | _ v ih =>
    rw [baseDigitsAux]
    split_ifs with h
    · simp [nibblesVal, h]
    · rw [nibblesVal, ih (v / (b2 + 2)) (Nat.div_lt_self (Nat.pos_of_ne_zero h) (by omega))]
      have := Nat.div_add_mod v (b2 + 2)
      omega

lemma baseDigitsAux_le (b2 : ℕ) : ∀ v, ∀ x ∈ baseDigitsAux b2 v, x ≤ b2 + 1 := by
  intro v
  induction v using Nat.strong_induction_on with
  | _ v ih =>
    intro x hx
    rw [baseDigitsAux] at hx
    split_ifs at hx with h
    · exact absurd hx (List.not_mem_nil x)
    · rcases List.mem_cons.mp hx with hx | hx
      · subst hx
        have := Nat.mod_lt v (y := b2 + 2) (by omega)
        omega
      · exact ih (v / (b2 + 2)) (Nat.div_lt_self (Nat.pos_of_ne_zero h) (by omega)) x hx

/-- Modelled from the spec: the signed recentering pass for base-B window
digits (spec section 4.5, "NAF-style signed c-bit windows"): a digit
exceeding B/2 is recentered by -B with carry +1, and a final carry is
appended as an extra digit. -/
def recenterGen (B : ℕ) : List ℕ → ℕ → List ℤ
  | [], c => if c = 0 then [] else [(c : ℤ)]
  | dd :: rest, c =>
      if B / 2 < dd + c then (((dd + c : ℕ) : ℤ) - B) :: recenterGen B rest 1
      else ((dd + c : ℕ) : ℤ) :: recenterGen B rest 0

lemma recenterGen_val (B : ℕ) : ∀ (l : List ℕ) (c : ℕ), c ≤ 1 →
    digitsVal (B : ℤ) (recenterGen B l c) = ((nibblesVal B l + c : ℕ) : ℤ) := by
  intro l
  induction l with
  | nil =>
    intro c hc
    rw [recenterGen]
    split_ifs with h
    · simp [digitsVal, nibblesVal, h]
    · have hc1 : c = 1 := by omega
      subst hc1
      simp [digitsVal, nibblesVal]
  | cons dd rest ih =>
    intro c hc
    by_cases h : B / 2 < dd + c
    · rw [recenterGen, if_pos h, digitsVal, ih 1 (by omega)]
      have hnib : nibblesVal B (dd :: rest) = dd + B * nibblesVal B rest := rfl
      rw [hnib]
      push_cast
      ring
    · rw [recenterGen, if_neg h, digitsVal, ih 0 (by omega)]
      have hnib : nibblesVal B (dd :: rest) = dd + B * nibblesVal B rest := rfl
      rw [hnib]
      push_cast
      ring

lemma recenterGen_bounds (B : ℕ) (hB2 : 2 ≤ B) (hBe : B % 2 = 0) :
    ∀ (l : List ℕ) (c : ℕ), c ≤ 1 → (∀ x ∈ l, x ≤ B - 1) →
    ∀ y ∈ recenterGen B l c, y.natAbs ≤ B / 2 := by
  intro l
  induction l with
  | nil =>
    intro c hc _ y hy
    rw [recenterGen] at hy
    split_ifs at hy with h
    · exact absurd hy (List.not_mem_nil y)
    · rcases List.mem_singleton.mp hy with rfl
      omega
  | cons dd rest ih =>
    intro c hc hmem y hy
    have hdd : dd ≤ B - 1 := hmem dd (by simp)
    have hrest : ∀ x ∈ rest, x ≤ B - 1 := fun x hx => hmem x (List.mem_cons_of_mem dd hx)
    rw [recenterGen] at hy
    split_ifs at hy with h
    · rcases List.mem_cons.mp hy with rfl | hy
      · omega
      · exact ih 1 le_rfl hrest y hy
    · rcases List.mem_cons.mp hy with rfl | hy
      · omega
      · exact ih 0 (by omega) hrest y hy

/-- Modelled from the spec: the signed base-2^c window digits of a scalar
used by Pippenger (spec section 4.5), with c = cc + 1. -/
def signedRadix (cc s : ℕ) : List ℤ :=
  recenterGen (2 ^ (cc + 1)) (baseDigitsAux (2 ^ (cc + 1) - 2) s) 0

lemma two_le_two_pow_succ (cc : ℕ) : 2 ≤ 2 ^ (cc + 1) := by
  calc (2 : ℕ) = 2 ^ 1 := (pow_one 2).symm
    _ ≤ 2 ^ (cc + 1) := Nat.pow_le_pow_right (by omega) (by omega)

lemma signedRadix_val (cc s : ℕ) :
    digitsVal ((2 ^ (cc + 1) : ℕ) : ℤ) (signedRadix cc s) = s := by
  have hBB : 2 ^ (cc + 1) - 2 + 2 = 2 ^ (cc + 1) := by
    have := two_le_two_pow_succ cc
    omega
  have h1 := baseDigitsAux_val (2 ^ (cc + 1) - 2) s
  rw [hBB] at h1
  rw [signedRadix, recenterGen_val _ _ 0 (by omega), h1, Nat.add_zero]

lemma signedRadix_natAbs (cc s : ℕ) : ∀ dd ∈ signedRadix cc s, dd.natAbs ≤ 2 ^ cc := by
  have hB2 := two_le_two_pow_succ cc
  have hBs : (2 : ℕ) ^ (cc + 1) = 2 * 2 ^ cc := pow_succ' 2 cc
  have hBe : 2 ^ (cc + 1) % 2 = 0 := by rw [hBs]; exact Nat.mul_mod_right 2 _
  have hhalf : 2 ^ (cc + 1) / 2 = 2 ^ cc := by rw [hBs]; exact Nat.mul_div_cancel_left _ (by omega)
  have hBB : 2 ^ (cc + 1) - 2 + 2 = 2 ^ (cc + 1) := by omega
  intro dd hdd
  have hbd : ∀ x ∈ baseDigitsAux (2 ^ (cc + 1) - 2) s, x ≤ 2 ^ (cc + 1) - 1 := by
    intro x hx
    have := baseDigitsAux_le (2 ^ (cc + 1) - 2) s x hx
    omega
  have := recenterGen_bounds (2 ^ (cc + 1)) hB2 hBe _ 0 (by omega) hbd dd hdd
  rwa [hhalf] at this

/-- A Pippenger bucket: the signed sum of the points whose digit is b
(added) or -b (subtracted) (spec section 4.5). -/
def bucket {G : Type} [AddCommGroup G] (pairs : List (ℤ × G)) (b : ℤ) : G :=
  (pairs.map fun q => if q.1 = b then q.2 else if q.1 = -b then -q.2 else 0).sum

/-- The buckets from index M down to 1, highest first (spec section 4.5:
the running-sum pass visits buckets from highest index to lowest). -/
def bucketsDown {G : Type} [AddCommGroup G] (pairs : List (ℤ × G)) : ℕ → List G
  | 0 => []
  | m + 1 => bucket pairs ((m : ℤ) + 1) :: bucketsDown pairs m

/-- One step of the running-sum pass: run += bucket; total += run
(spec section 4.5). -/
def runStep {G : Type} [AddCommGroup G] (rt : G × G) (B : G) : G × G :=
  (rt.1 + B, rt.2 + rt.1 + B)

/-- The window total computed by the running-sum pass over the buckets
(spec section 4.5): this computes Σ i·bucket[i] in one linear pass. -/
def windowTotal {G : Type} [AddCommGroup G] (M : ℕ) (pairs : List (ℤ × G)) : G :=
  ((bucketsDown pairs M).foldl runStep (0, 0)).2

/-- The weighted sum Σ (position from the bottom) • entry of a list,
highest weight first. -/
def wsum {G : Type} [AddCommGroup G] : List G → G
  | [] => 0
  | B :: rest => (rest.length + 1) • B + wsum rest

lemma bucketsDown_length {G : Type} [AddCommGroup G] (pairs : List (ℤ × G)) (M : ℕ) :
    (bucketsDown pairs M).length = M := by
  induction M with
  | zero => rfl
  | succ M ih => simp [bucketsDown, ih]

lemma foldl_runStep {G : Type} [AddCommGroup G] (l : List G) : ∀ r t : G,
    l.foldl runStep (r, t) = (r + l.sum, t + l.length • r + wsum l) := by
  induction l with
  | nil => intro r t; simp [wsum]
  | cons B rest ih =>
    intro r t
    rw [List.foldl_cons, show runStep (r, t) B = (r + B, t + r + B) from rfl, ih (r + B) (t + r + B)]
    refine Prod.ext ?_ ?_
    · simp [List.sum_cons]
      abel
    · simp [wsum, List.length_cons, succ_nsmul, smul_add]
      abel

lemma bucket_cons {G : Type} [AddCommGroup G] (q : ℤ × G) (rest : List (ℤ × G)) (b : ℤ) :
    bucket (q :: rest) b =
      (if q.1 = b then q.2 else if q.1 = -b then -q.2 else 0) + bucket rest b := by
  rw [bucket, List.map_cons, List.sum_cons, bucket]

lemma wsum_bucketsDown_nil {G : Type} [AddCommGroup G] (M : ℕ) :
    wsum (bucketsDown ([] : List (ℤ × G)) M) = 0 := by
  induction M with
  | zero => rfl
  | succ M ih => simp [bucketsDown, wsum, bucket, ih]

lemma wsum_bucketsDown_cons {G : Type} [AddCommGroup G] (q : ℤ × G) (rest : List (ℤ × G))
    (M : ℕ) : wsum (bucketsDown (q :: rest) M) =
      wsum (bucketsDown [q] M) + wsum (bucketsDown rest M) := by
  induction M with
  | zero => simp [bucketsDown, wsum]
  | succ M ih =>
    simp only [bucketsDown, wsum, bucketsDown_length, bucket_cons]
    rw [ih]
    simp only [bucket, List.map_nil, List.sum_nil, add_zero, smul_add]
    abel

lemma wsum_bucketsDown_single_zero {G : Type} [AddCommGroup G] (q : ℤ × G) :
    ∀ M : ℕ, M < q.1.natAbs → wsum (bucketsDown [q] M) = 0 := by
  intro M
  induction M with
  | zero => intro _; rfl
  | succ M ih =>
    intro h
    simp only [bucketsDown, wsum, bucketsDown_length]
    rw [bucket_cons, bucket, if_neg (by omega), if_neg (by omega)]
    simp [ih (by omega)]

lemma wsum_bucketsDown_single {G : Type} [AddCommGroup G] (q : ℤ × G) :
    ∀ M : ℕ, q.1.natAbs ≤ M → wsum (bucketsDown [q] M) = q.1 • q.2 := by
  intro M
  induction M with
  | zero =>
    intro h
    have : q.1 = 0 := by omega
    rw [this, zero_smul]
    rfl
  | succ M ih =>
    intro h
    simp only [bucketsDown, wsum, bucketsDown_length]
    by_cases hM : q.1.natAbs ≤ M
    · rw [bucket_cons, bucket, if_neg (by omega), if_neg (by omega)]
      simp [ih hM]
    · have habs : q.1.natAbs = M + 1 := by omega
      rcases Int.natAbs_eq q.1 with hq | hq
      · rw [bucket_cons, bucket, if_pos (by omega)]
        simp only [List.map_nil, List.sum_nil, add_zero]
        rw [wsum_bucketsDown_single_zero q M (by omega), add_zero]
        have hcast : q.1 = ((M + 1 : ℕ) : ℤ) := by omega
        rw [hcast, natCast_zsmul]
      · rw [bucket_cons, bucket, if_neg (by omega), if_pos (by omega)]
        simp only [List.map_nil, List.sum_nil, add_zero]
        rw [wsum_bucketsDown_single_zero q M (by omega), add_zero]
        have hcast : q.1 = -((M + 1 : ℕ) : ℤ) := by omega
        rw [hcast, neg_smul, ← smul_neg, natCast_zsmul]

lemma wsum_bucketsDown_eq {G : Type} [AddCommGroup G] (M : ℕ) :
    ∀ pairs : List (ℤ × G), (∀ q ∈ pairs, q.1.natAbs ≤ M) →
      wsum (bucketsDown pairs M) = (pairs.map fun q => q.1 • q.2).sum := by
  intro pairs
  induction pairs with
  | nil => intro _; simp [wsum_bucketsDown_nil]
  | cons q rest ih =>
    intro h
    rw [wsum_bucketsDown_cons, wsum_bucketsDown_single q M (h q (by simp)),
        ih (fun q' hq' => h q' (List.mem_cons_of_mem q hq')), List.map_cons, List.sum_cons]

/-- The running-sum pass computes the weighted bucket sum, which equals
the per-window digit contribution Σ dᵢ • Pᵢ. -/
lemma windowTotal_eq {G : Type} [AddCommGroup G] (M : ℕ) (pairs : List (ℤ × G))
    (h : ∀ q ∈ pairs, q.1.natAbs ≤ M) :
    windowTotal M pairs = (pairs.map fun q => q.1 • q.2).sum := by
  rw [windowTotal, foldl_runStep]
  simp only [smul_zero, add_zero, zero_add]
  exact wsum_bucketsDown_eq M pairs h

/-- Modelled from the spec: Pippenger window accumulation — per window a
bucket pass computes the window total, and windows are combined
Horner-style doubling by c bits between windows (spec section 4.5). -/
def pipRec {G : Type} [AddCommGroup G] (B M : ℕ) : ℕ → List (List ℤ × G) → G
  | 0, _ => 0
  | L + 1, terms =>
      B • pipRec B M L (terms.map fun t => (t.1.tail, t.2)) +
        windowTotal M (terms.map fun t => (t.1.headI, t.2))

lemma pipRec_eq {G : Type} [AddCommGroup G] (B M : ℕ) (L : ℕ) :
    ∀ terms : List (List ℤ × G), (∀ t ∈ terms, t.1.length ≤ L) →
      (∀ t ∈ terms, ∀ dd ∈ t.1, dd.natAbs ≤ M) →
      pipRec B M L terms = (terms.map fun t => digitsVal B t.1 • t.2).sum := by
  induction L with
  | zero =>
    intro terms h _
    rw [pipRec]
    refine (List.sum_eq_zero ?_).symm
    intro x hx
    obtain ⟨t, ht, rfl⟩ := List.mem_map.mp hx
    have : t.1 = [] := List.length_eq_zero.mp (Nat.le_zero.mp (h t ht))
    rw [this]
    simp [digitsVal]
  | succ L ih =>
    intro terms h hdig
    have hpairs : ∀ q ∈ terms.map fun t => (t.1.headI, t.2), q.1.natAbs ≤ M := by
      intro q hq
      obtain ⟨t, ht, rfl⟩ := List.mem_map.mp hq
      cases hl : t.1 with
      | nil => simp [hl]
      | cons a l =>
        have : a ∈ t.1 := by rw [hl]; exact List.mem_cons_self a l
        have := hdig t ht a this
        simpa [hl] using this
    rw [pipRec, windowTotal_eq M _ hpairs, ih _ ?_ ?_, List.map_map, List.map_map]
    rotate_left
    · intro t ht
      obtain ⟨t0, ht0, rfl⟩ := List.mem_map.mp ht
      have := h t0 ht0
      rw [List.length_tail]
      omega
    · intro t ht
      obtain ⟨t0, ht0, rfl⟩ := List.mem_map.mp ht
      intro dd hdd
      exact hdig t0 ht0 dd (List.mem_of_mem_tail hdd)
    have h1 : ∀ t ∈ terms, digitsVal (B : ℤ) t.1 • t.2 =
        t.1.headI • t.2 + B • (digitsVal (B : ℤ) t.1.tail • t.2) := by
      intro t _
      rw [digitsVal_headI_tail (B : ℤ) t.1, add_smul, mul_smul, natCast_zsmul]
    rw [List.map_congr_left h1, list_sum_map_add, list_sum_map_smul]
    exact add_comm _ _

/-- Modelled from the spec: the Pippenger engine — scalars expanded into
signed 2^c windows (c = cc + 1), bucket accumulation per window, windows
combined Horner-style (spec section 4.5). -/
def pippenger {G : Type} [AddCommGroup G] (cc : ℕ) (scalars : List ℕ) (points : List G) : G :=
  pipRec (2 ^ (cc + 1)) (2 ^ cc)
    (maxListLen ((scalars.zip points).map fun sp => (signedRadix cc sp.1, sp.2)))
    ((scalars.zip points).map fun sp => (signedRadix cc sp.1, sp.2))

lemma pippenger_eq {G : Type} [AddCommGroup G] (cc : ℕ) (scalars : List ℕ) (points : List G) :
    pippenger cc scalars points = msmSpec scalars points := by
  rw [pippenger, pipRec_eq _ _ _ _ (le_maxListLen _) ?_, List.map_map, msmSpec]
  · refine congrArg List.sum (List.map_congr_left ?_)
    intro sp _
    simp only [Function.comp]
    rw [signedRadix_val cc sp.1]
  · intro t ht
    obtain ⟨sp, _, rfl⟩ := List.mem_map.mp ht
    exact signedRadix_natAbs cc sp.1

/-- C1: over any additive commutative group of points (the specification
treats the group as abstract algebra, section 1), for every batch —
including n = 1 and n = 0 — the constant-time Straus path, the
variable-time (NAF) Straus path for every window width, and the Pippenger
bucket engine for every window width all produce the value Σ sᵢ • Pᵢ and
therefore equal result points; identical result points compress to
byte-identical output since compression is a function of the point. -/
theorem msm_strategies_agree (G : Type) [AddCommGroup G]
    (scalars : List ℕ) (points : List G) (k cc : ℕ)
    (h : ∀ s ∈ scalars, s < 2 ^ 256) :
    strausCT scalars points = msmSpec scalars points ∧
    strausVT k scalars points = msmSpec scalars points ∧
    pippenger cc scalars points = msmSpec scalars points ∧
    strausCT scalars points = strausVT k scalars points ∧
    strausCT scalars points = pippenger cc scalars points := by
  have h1 := strausCT_eq scalars points h
  have h2 := strausVT_eq k scalars points
  have h3 := pippenger_eq cc scalars points
  exact ⟨h1, h2, h3, h1.trans h2.symm, h1.trans h3.symm⟩

/-- Witness for C1: the strategy agreement instantiated over ℤ at the
batch ([3], [5]) with window parameters 0. -/
theorem msm_strategies_agree_witness :
    (∀ s ∈ [(3 : ℕ)], s < 2 ^ 256) ∧
    (strausCT [3] [(5 : ℤ)] = msmSpec [3] [(5 : ℤ)] ∧
     strausVT 0 [3] [(5 : ℤ)] = msmSpec [3] [(5 : ℤ)] ∧
     pippenger 0 [3] [(5 : ℤ)] = msmSpec [3] [(5 : ℤ)] ∧
     strausCT [3] [(5 : ℤ)] = strausVT 0 [3] [(5 : ℤ)] ∧
     strausCT [3] [(5 : ℤ)] = pippenger 0 [3] [(5 : ℤ)]) :=
  ⟨by decide, msm_strategies_agree ℤ [3] [(5 : ℤ)] 0 0 (by decide)⟩

/-- Sequencing of optional points: the embedding of
`collect::<Option<Vec<_>>>()`, which propagates an absent entry
(`prove_option_collect_none_propagation` in `kani_proofs.rs`). -/
def seqOpt {α : Type} : List (Option α) → Option (List α)
  | [] => some []
  | none :: _ => none
  | some a :: rest => (seqOpt rest).map fun l => a :: l

/-- Modelled from the spec: the optional-input Straus entry point —
collect the maybe-points; absent on any absent input, otherwise the
variable-time result (spec sections 4.4 and 6). -/
def strausOptional {G : Type} [AddCommGroup G] (k : ℕ) (scalars : List ℕ)
    (opts : List (Option G)) : Option G :=
  (seqOpt opts).map fun pts => strausVT k scalars pts

/-- Modelled from the spec: the optional-input Pippenger entry point
(spec sections 4.5 and 6). -/
def pippengerOptional {G : Type} [AddCommGroup G] (cc : ℕ) (scalars : List ℕ)
    (opts : List (Option G)) : Option G :=
  (seqOpt opts).map fun pts => pippenger cc scalars pts

lemma seqOpt_eq_none_iff {α : Type} (opts : List (Option α)) :
    seqOpt opts = none ↔ none ∈ opts := by
  induction opts with
  | nil => simp [seqOpt]
  | cons o rest ih =>
    cases o with
    | none => simp [seqOpt]
    | some a =>
      simp only [seqOpt, List.mem_cons, Option.map_eq_none']
      rw [ih]
      constructor
      · exact Or.inr
      · rintro (h | h)
        · exact Option.noConfusion h
        · exact h

/-- C4: for both engines, optional multi-scalar multiplication returns an
absent result exactly when at least one input point is absent, regardless
of the other entries; when all points are present it returns the result
of the non-optional variable-time variant on those points. -/
theorem optional_msm_contract (G : Type) [AddCommGroup G] (k cc : ℕ)
    (scalars : List ℕ) (opts : List (Option G)) :
    (strausOptional k scalars opts = none ↔ none ∈ opts) ∧
    (pippengerOptional cc scalars opts = none ↔ none ∈ opts) ∧
    (∀ pts, seqOpt opts = some pts →
      strausOptional k scalars opts = some (strausVT k scalars pts) ∧
      pippengerOptional cc scalars opts = some (pippenger cc scalars pts)) := by
  refine ⟨?_, ?_, ?_⟩
  · rw [strausOptional, Option.map_eq_none']
    exact seqOpt_eq_none_iff opts
  · rw [pippengerOptional, Option.map_eq_none']
    exact seqOpt_eq_none_iff opts
  · intro pts hpts
    rw [strausOptional, pippengerOptional, hpts]
    exact ⟨rfl, rfl⟩

/-- Witness for C4: over ℤ, the contract applied at a present batch
([some 5]) with the hypothesis of the all-present clause discharged by
evaluation, and the none-propagation clause at ([none]). -/
theorem optional_msm_contract_witness :
    (strausOptional 0 [3] [(none : Option ℤ)] = none ↔ none ∈ [(none : Option ℤ)]) ∧
    (strausOptional 0 [3] [some (5 : ℤ)] = some (strausVT 0 [3] [(5 : ℤ)]) ∧
     pippengerOptional 0 [3] [some (5 : ℤ)] = some (pippenger 0 [3] [(5 : ℤ)])) :=
  ⟨(optional_msm_contract ℤ 0 0 [3] [(none : Option ℤ)]).1,
   (optional_msm_contract ℤ 0 0 [3] [some (5 : ℤ)]).2.2 [(5 : ℤ)] rfl⟩

/-- C8: the embedded computations are pure functions, so decoding equal
bytes yields equal results and the radix-16 and width-w NAF expansions
are functions of the scalar alone: on equal inputs they produce equal
outputs.  This settles the statements of `prove_scalar_from_consistent`,
`prove_as_radix_16_deterministic` and `prove_naf_deterministic` in
`kani_proofs.rs`. -/
theorem decode_and_expansions_deterministic (x s k : ℕ) (b b' : List ℕ) (hb : b = b') :
    u64_to_le_bytes x = u64_to_le_bytes x ∧
    bytesToNatFirst b 32 = bytesToNatFirst b' 32 ∧
    as_radix_16 s = as_radix_16 s ∧
    nafAux k s = nafAux k s ∧
    signedRadix k s = signedRadix k s :=
  ⟨rfl, by rw [hb], rfl, rfl, rfl⟩

/-- Witness for C8: determinism instantiated at concrete inputs. -/
theorem decode_and_expansions_deterministic_witness :
    u64_to_le_bytes 7 = u64_to_le_bytes 7 ∧
    bytesToNatFirst [1, 2] 32 = bytesToNatFirst [1, 2] 32 ∧
    as_radix_16 9 = as_radix_16 9 ∧
    nafAux 3 9 = nafAux 3 9 ∧
    signedRadix 3 9 = signedRadix 3 9 :=
  decode_and_expansions_deterministic 7 9 3 [1, 2] [1, 2] rfl
